import Mathlib

/-!
Verification development for the topo repository.

This file shallowly embeds the core data model and algorithms of the
repository (Rust crates atlas-core, atlas-index, atlas-score,
atlas-treesit, topo-scanner) as executable Lean definitions and proves
or refutes the frozen specification claims about them.

Modelling conventions:
* `u64` arithmetic is `Nat` reduced modulo `2 ^ 64` (Rust release-mode
  wrapping) at every operation that can overflow.
* `f64` fields (`avg_doc_length`, scores) are modelled as exact
  rationals `ℚ`; rounding is not modelled.
* Rust `HashMap<String, V>` is modelled as an association list
  `List (String × V)`; the map invariant (no duplicate keys) appears as
  an explicit hypothesis where a statement needs it.
* Character classification (`is_alphabetic`, …) uses the ASCII
  predicates; the Rust originals are Unicode-aware, which coincides on
  the ASCII inputs all concrete statements below use.
-/

namespace Topo

/-- The modulus of Rust `u64` arithmetic. -/
def U64 : Nat := 2 ^ 64

/-! ### Association-list model of `HashMap<String, V>` -/

/-- Lookup in an association list (first match wins, like `HashMap::get`
on a well-formed map). -/
def assocFind? {β : Type} (k : String) : List (String × β) → Option β
  | [] => none
  | (a, b) :: rest => if a = k then some b else assocFind? k rest

/-- `HashMap::insert`: replace the binding for `k` if present, otherwise
append a new binding. -/
def assocInsert {β : Type} (k : String) (v : β) : List (String × β) → List (String × β)
  | [] => [(k, v)]
  | (a, b) :: rest => if a = k then (k, v) :: rest else (a, b) :: assocInsert k v rest

/-- `*map.entry(k).or_default() += 1` on a `HashMap<String, u32>`. -/
def assocBump (k : String) : List (String × Nat) → List (String × Nat)
  | [] => [(k, 1)]
  | (a, n) :: rest => if a = k then (a, n + 1) :: rest else (a, n) :: assocBump k rest

/-- Keys of an association list. -/
def assocKeys {β : Type} (m : List (String × β)) : List String :=
  m.map Prod.fst

/-! ### Core data model (`atlas-core/src/types.rs`) -/

/-- Detected programming language (`Language`). -/
inductive Language where
  | rust | go | python | javascript | typescript | java | ruby | c | cpp | shell
  | markdown | yaml | toml | json | html | css | swift | kotlin | scala | haskell
  | elixir | lua | php | r | other
deriving DecidableEq, Repr

/-- Classification of a file's role in the project (`FileRole`). -/
inductive FileRole where
  | implementation | test | config | documentation | generated | build | other
deriving DecidableEq, Repr

/-- Metadata for a single scanned file (`FileInfo`).  The SHA-256 is a
32-entry byte list. -/
structure FileInfo where
  path : String
  size : Nat
  language : Language
  role : FileRole
  sha256 : List Nat
deriving DecidableEq, Repr

/-- `FileInfo::estimated_tokens`: bytes / 4. -/
def FileInfo.estimated_tokens (f : FileInfo) : Nat := f.size / 4

/-- The kind of code chunk (`ChunkKind`). -/
inductive ChunkKind where
  | function | type | impl | import | other
deriving DecidableEq, Repr

/-- A code chunk extracted by tree-sitter or regex fallback (`Chunk`). -/
structure Chunk where
  kind : ChunkKind
  name : String
  start_line : Nat
  end_line : Nat
  content : String
deriving DecidableEq, Repr

/-- Term frequency counts across fields (`TermFreqs`). -/
structure TermFreqs where
  filename : Nat
  symbols : Nat
  body : Nat
deriving DecidableEq, Repr

/-- The all-zero `TermFreqs`, i.e. Rust `TermFreqs::default()`. -/
def TermFreqs.default : TermFreqs := ⟨0, 0, 0⟩

/-- Per-file entry in the deep index (`FileEntry`). -/
structure FileEntry where
  sha256 : List Nat
  chunks : List Chunk
  term_frequencies : List (String × TermFreqs)
  doc_length : Nat
deriving DecidableEq, Repr

/-- The deep index (`DeepIndex`).  `avg_doc_length` is `f64` in Rust,
modelled as `ℚ`. -/
structure DeepIndex where
  version : Nat
  files : List (String × FileEntry)
  avg_doc_length : ℚ
  total_docs : Nat
  doc_frequencies : List (String × Nat)
deriving DecidableEq, Repr

/-- Per-signal score breakdown (`SignalBreakdown`), `f64` as `ℚ`. -/
structure SignalBreakdown where
  bm25f : ℚ
  heuristic : ℚ
  pagerank : Option ℚ
  git_recency : Option ℚ
  embedding : Option ℚ
deriving DecidableEq, Repr

/-- A file with its computed relevance score (`ScoredFile`). -/
structure ScoredFile where
  path : String
  score : ℚ
  signals : SignalBreakdown
  tokens : Nat
  language : Language
  role : FileRole
deriving DecidableEq, Repr

/-- Token budget configuration (`TokenBudget`). -/
structure TokenBudget where
  max_bytes : Option Nat
  max_tokens : Option Nat
deriving DecidableEq, Repr

/-! ### `TokenBudget::enforce` (`atlas-core/src/types.rs:447`) -/

/-- The test `total + add > cap` performed by `enforce` for one optional
cap, with wrapping `u64` addition.  `none` (no cap) never reports an
excess. -/
def capExceeded (cap : Option Nat) (total add : Nat) : Bool :=
  match cap with
  | some m => decide ((total + add) % U64 > m)
  | none => false

/-- The loop body of `TokenBudget::enforce`: walk `files`, carrying the
accumulated `result`, `total_bytes` and `total_tokens`. -/
def enforceGo (b : TokenBudget) :
    List ScoredFile → List ScoredFile → Nat → Nat → List ScoredFile
  | [], result, _, _ => result
  | file :: rest, result, totalBytes, totalTokens =>
    let fileBytes := file.tokens * 4 % U64
    let fileTokens := file.tokens
    if capExceeded b.max_bytes totalBytes fileBytes && !result.isEmpty then
      result
    else if capExceeded b.max_tokens totalTokens fileTokens && !result.isEmpty then
      result
    else
      enforceGo b rest (result ++ [file]) ((totalBytes + fileBytes) % U64)
        ((totalTokens + fileTokens) % U64)

/-- `TokenBudget::enforce`: walk the sorted list in order, accumulating
bytes (tokens·4) and tokens, stopping at the first file that would
exceed a cap, except that the first file is always kept. -/
def TokenBudget.enforce (b : TokenBudget) (files : List ScoredFile) : List ScoredFile :=
  enforceGo b files [] 0 0

/-- Number of files `enforce` keeps, starting from running sums
`totalBytes`/`totalTokens` and result-emptiness flag `isEmpty`. -/
def stopCount (b : TokenBudget) :
    List ScoredFile → Bool → Nat → Nat → Nat
  | [], _, _, _ => 0
  | file :: rest, isEmpty, totalBytes, totalTokens =>
    let fileBytes := file.tokens * 4 % U64
    if capExceeded b.max_bytes totalBytes fileBytes && !isEmpty then 0
    else if capExceeded b.max_tokens totalTokens file.tokens && !isEmpty then 0
    else
      stopCount b rest false ((totalBytes + fileBytes) % U64)
        ((totalTokens + file.tokens) % U64) + 1

/-- Byte cost of one scored file: `tokens * 4` in wrapping `u64`. -/
def bytesOf (f : ScoredFile) : Nat := f.tokens * 4 % U64

/-- Wrapped running byte sum of the first `k` files, starting from `s`. -/
def runBytes (s : Nat) (files : List ScoredFile) (k : Nat) : Nat :=
  (files.take k).foldl (fun acc f => (acc + bytesOf f) % U64) s

/-- Wrapped running token sum of the first `k` files, starting from `s`. -/
def runTokens (s : Nat) (files : List ScoredFile) (k : Nat) : Nat :=
  (files.take k).foldl (fun acc f => (acc + f.tokens) % U64) s

/-- One optional cap admits running sum `s`. -/
def capOk (cap : Option Nat) (s : Nat) : Bool :=
  match cap with
  | some m => decide (s ≤ m)
  | none => true

/-- Spec-side inclusion test, following the spec's words: the `i`-th file
(0-based) is included iff the result so far is still empty (`i = 0`,
given emptiness flag `e` and sum origins `tb`/`tt`) or adding it keeps
both running sums within their caps. -/
def specIncludedFrom (b : TokenBudget) (e : Bool) (tb tt : Nat)
    (files : List ScoredFile) (i : Nat) : Bool :=
  (e && i == 0) ||
    (capOk b.max_bytes (runBytes tb files (i + 1)) &&
      capOk b.max_tokens (runTokens tt files (i + 1)))

/-- Spec-side inclusion test for a whole run (result initially empty,
sums initially zero). -/
def specIncluded (b : TokenBudget) (files : List ScoredFile) (i : Nat) : Bool :=
  specIncludedFrom b true 0 0 files i

/-- Order on optional caps: `none` is the absent (unbounded) cap. -/
def capLe : Option Nat → Option Nat → Bool
  | _, none => true
  | some m1, some m2 => decide (m1 ≤ m2)
  | none, some _ => false

/-- A budget is at most another if each cap is at most the other's. -/
def budgetLe (b c : TokenBudget) : Bool :=
  capLe b.max_bytes c.max_bytes && capLe b.max_tokens c.max_tokens

/-! ### String utilities

Pure counterparts of the Rust `str`/`Path` methods the embedded code
uses, implemented over `List Char` (`String.toList`).  Character class
tests are the ASCII ones (see the header note). -/

/-- The `(` … `)` delimiter characters written without brace literals. -/
def lbraceChar : Char := Char.ofNat 123

/-- Rust `str::starts_with` for a string pattern. -/
def strStartsWith (s p : String) : Bool :=
  p.toList.isPrefixOf s.toList

/-- Rust `str::strip_prefix`: remove `p` once from the front if present. -/
def stripPrefixStr (s p : String) : Option String :=
  if p.toList.isPrefixOf s.toList then
    some (String.mk (s.toList.drop p.toList.length))
  else none

/-- Core of `str::trim_start_matches`: repeatedly remove the (nonempty)
pattern from the front.  The fuel argument only bounds the recursion so
that it is structural (and so reduces in the kernel); every strip
shortens the list by at least one character, so `s.length + 1` rounds
always reach the fixed point. -/
def listTrimStartMatchesGo (p : List Char) : Nat → List Char → List Char
  | 0, s => s
  | fuel + 1, s =>
    if !p.isEmpty && p.isPrefixOf s then
      listTrimStartMatchesGo p fuel (s.drop p.length)
    else s

/-- Rust `trim_start_matches` on char lists. -/
def listTrimStartMatches (p : List Char) (s : List Char) : List Char :=
  listTrimStartMatchesGo p (s.length + 1) s

/-- Rust `s.trim_start_matches(p)` for a string pattern. -/
def trimStartMatches (s p : String) : String :=
  String.mk (listTrimStartMatches p.toList s.toList)

/-- Core of `str::trim_end_matches`: repeatedly remove the (nonempty)
pattern from the back. -/
def listTrimEndMatches (p : List Char) (s : List Char) : List Char :=
  (listTrimStartMatches p.reverse s.reverse).reverse

/-- Rust `s.trim_end_matches(p)` for a string pattern. -/
def trimEndMatches (s p : String) : String :=
  String.mk (listTrimEndMatches p.toList s.toList)

/-- Rust `str::trim_start` on a char list. -/
def listTrimLeft (l : List Char) : List Char :=
  l.dropWhile Char.isWhitespace

/-- Rust `str::trim_end` on a char list. -/
def listTrimRight (l : List Char) : List Char :=
  (l.reverse.dropWhile Char.isWhitespace).reverse

/-- Rust `str::trim` on a char list. -/
def listTrim (l : List Char) : List Char :=
  listTrimRight (listTrimLeft l)

/-- Rust `str::trim`. -/
def strTrim (s : String) : String :=
  String.mk (listTrim s.toList)

/-- Rust `str::trim_start`. -/
def strTrimLeft (s : String) : String :=
  String.mk (listTrimLeft s.toList)

/-- Rust `s.contains(c)` for a char pattern. -/
def strContains (s : String) (c : Char) : Bool :=
  s.toList.contains c

/-- Rust `s.contains(pat)` for a string pattern (substring search). -/
def containsSub (s pat : String) : Bool :=
  (List.range (s.toList.length + 1)).any
    (fun i => pat.toList.isPrefixOf (s.toList.drop i))

/-- Rust `str::split` on a character predicate, as a list of segments.
Splitting never yields an empty list (the empty string gives `[[]]`). -/
def splitOnPred (p : Char → Bool) : List Char → List (List Char)
  | [] => [[]]
  | c :: rest =>
    let r := splitOnPred p rest
    if p c then [] :: r
    else
      match r with
      | [] => [[c]]
      | h :: t => (c :: h) :: t

/-- Rust `s.split(delims)` for a char-set pattern, as strings. -/
def splitChars (s : String) (delims : List Char) : List String :=
  (splitOnPred (fun c => delims.contains c) s.toList).map String.mk

/-- Rust `s.rsplit_once(c)`: split at the last occurrence of `c` into
(before, after); `none` when `c` does not occur. -/
def rsplitOnce (c : Char) (s : String) : Option (String × String) :=
  let l := s.toList
  if l.contains c then
    let rev := l.reverse
    some (String.mk (((rev.dropWhile (· ≠ c)).drop 1).reverse),
      String.mk ((rev.takeWhile (· ≠ c)).reverse))
  else none

/-- Rust `s.to_lowercase()` (ASCII case mapping). -/
def strToLower (s : String) : String :=
  String.mk (s.toList.map Char.toLower)

/-! ### Regex chunker (`atlas-treesit/src/regex_chunker.rs`) -/

/-- `ident(rest, delims)`: first delimiter-free segment of `rest`,
trimmed; `None` when that is empty. -/
def ident (rest : String) (delims : List Char) : Option String :=
  let name := String.mk (listTrim (rest.toList.takeWhile (fun c => !delims.contains c)))
  if name = "" then none else some name

/-- `extract_rust`. -/
def extract_rust (line : String) : Option (ChunkKind × String) :=
  let stripped := trimStartMatches (trimStartMatches (trimStartMatches
    (trimStartMatches (trimStartMatches (trimStartMatches line "pub ")
      "pub(crate) ") "pub(super) ") "async ") "unsafe ") "const "
  match stripPrefixStr stripped "fn " with
  | some rest => (ident rest ['(', '<', ' ']).map (fun n => (ChunkKind.function, n))
  | none =>
  match stripPrefixStr stripped "struct " with
  | some rest => (ident rest [' ', lbraceChar, '<', '(']).map (fun n => (ChunkKind.type, n))
  | none =>
  match stripPrefixStr stripped "enum " with
  | some rest => (ident rest [' ', lbraceChar, '<']).map (fun n => (ChunkKind.type, n))
  | none =>
  match stripPrefixStr stripped "trait " with
  | some rest => (ident rest [' ', lbraceChar, '<', ':']).map (fun n => (ChunkKind.type, n))
  | none =>
  match stripPrefixStr stripped "type " with
  | some rest => (ident rest [' ', '=', '<', ';']).map (fun n => (ChunkKind.type, n))
  | none =>
  match stripPrefixStr stripped "impl " with
  | some rest => (ident rest [' ', lbraceChar, '<']).map (fun n => (ChunkKind.impl, n))
  | none =>
  if strStartsWith stripped "use " then some (ChunkKind.import, stripped) else none

/-- `extract_go`. -/
def extract_go (line : String) : Option (ChunkKind × String) :=
  match stripPrefixStr line "func " with
  | some rest0 =>
    -- Method: func (r *Receiver) Name(...) — `rest.split(')').nth(1)?.trim_start()`
    let restOpt : Option String :=
      if strStartsWith rest0 "(" then
        ((splitChars rest0 [')']).get? 1).map strTrimLeft
      else some rest0
    match restOpt with
    | none => none
    | some rest => (ident rest ['(', ' ']).map (fun n => (ChunkKind.function, n))
  | none =>
  match stripPrefixStr line "type " with
  | some rest => (ident rest [' ']).map (fun n => (ChunkKind.type, n))
  | none =>
  if strStartsWith line "import " || line = "import (" then
    some (ChunkKind.import, line)
  else none

/-- `extract_python`. -/
def extract_python (line : String) : Option (ChunkKind × String) :=
  let stripped := trimStartMatches line "async "
  match stripPrefixStr stripped "def " with
  | some rest => (ident rest ['(']).map (fun n => (ChunkKind.function, n))
  | none =>
  match stripPrefixStr stripped "class " with
  | some rest => (ident rest ['(', ':']).map (fun n => (ChunkKind.type, n))
  | none =>
  if strStartsWith line "import " || strStartsWith line "from " then
    some (ChunkKind.import, line)
  else none

/-- The part of `extract_js_ts` after the `function ` check (shared by
the no-`function `-prefix path and the generator-star fall-through). -/
def extract_js_ts_tail (stripped line : String) : Option (ChunkKind × String) :=
  match stripPrefixStr stripped "class " with
  | some rest => (ident rest [' ', lbraceChar, '<']).map (fun n => (ChunkKind.type, n))
  | none =>
  match stripPrefixStr stripped "interface " with
  | some rest => (ident rest [' ', lbraceChar, '<']).map (fun n => (ChunkKind.type, n))
  | none =>
  match stripPrefixStr stripped "type " with
  | some rest => (ident rest [' ', '=', '<']).map (fun n => (ChunkKind.type, n))
  | none =>
  match stripPrefixStr stripped "enum " with
  | some rest => (ident rest [' ', lbraceChar]).map (fun n => (ChunkKind.type, n))
  | none =>
  -- Arrow functions: const foo = (...) =>
  match (stripPrefixStr stripped "const ").orElse (fun _ => stripPrefixStr stripped "let ") with
  | some rest =>
    if containsSub rest "=>" || containsSub rest "function" then
      (ident rest [' ', '=', ':']).map (fun n => (ChunkKind.function, n))
    else if strStartsWith line "import " then some (ChunkKind.import, line) else none
  | none =>
    if strStartsWith line "import " then some (ChunkKind.import, line) else none

/-- `extract_js_ts`. -/
def extract_js_ts (line : String) : Option (ChunkKind × String) :=
  let stripped := trimStartMatches (trimStartMatches (trimStartMatches
    (trimStartMatches (trimStartMatches line "export ") "default ") "async ")
    "abstract ") "declare "
  match stripPrefixStr stripped "function " with
  | some rest =>
    match ident rest ['(', '<', ' '] with
    | none => none
    | some name =>
      if name ≠ "*" then some (ChunkKind.function, name)
      else extract_js_ts_tail stripped line
  | none => extract_js_ts_tail stripped line

/-- The modifier list of `strip_java_modifiers`. -/
def javaModifiers : List String :=
  ["public ", "private ", "protected ", "static ", "final ", "abstract ",
    "synchronized ", "native ", "default "]

/-- One round of the `strip_java_modifiers` loop body: try each modifier
once, in order. -/
def stripJavaModsStep (s : String) : String :=
  javaModifiers.foldl
    (fun t m => match stripPrefixStr t m with | some r => r | none => t) s

/-- `s.find(' ')`-then-`s[idx+1..]` used by the annotation branch:
drop through the first space (and `trim_start`); `none` when no space. -/
def dropThroughSpaceTrim (s : String) : Option String :=
  if s.toList.contains ' ' then
    some (String.mk (((s.toList.dropWhile (· ≠ ' ')).drop 1).dropWhile Char.isWhitespace))
  else none

/-- The loop of `strip_java_modifiers`, with structural fuel: every
round that does not return strictly shortens the string (a modifier or
an annotation head is removed), so `s.length + 1` rounds suffice. -/
def stripJavaModsGo : Nat → String → String
  | 0, s => s
  | fuel + 1, s =>
    let s1 := stripJavaModsStep s
    if strStartsWith s1 "@" then
      match dropThroughSpaceTrim s1 with
      | some s2 => stripJavaModsGo fuel s2
      | none => if s1 = s then s1 else stripJavaModsGo fuel s1
    else if s1 = s then s1 else stripJavaModsGo fuel s1

/-- `strip_java_modifiers`: the fixed-point loop stripping modifier
keywords and same-line annotations. -/
def strip_java_modifiers (s : String) : String :=
  stripJavaModsGo (s.length + 1) s

/-- `extract_java_method_name`: last space-separated token before `(`,
validated as an identifier. -/
def extract_java_method_name (stripped : String) : Option String :=
  if strContains stripped '(' then
    let before_paren := String.mk (listTrim (stripped.toList.takeWhile (· ≠ '(')))
    match rsplitOnce ' ' before_paren with
    | none => none
    | some (_, name) =>
      match name.toList with
      | [] => none
      | c :: _ =>
        if c.isAlpha && name.toList.all (fun ch => ch.isAlphanum || ch == '_') then
          some name
        else none
  else none

/-- `extract_java`. -/
def extract_java (line : String) : Option (ChunkKind × String) :=
  let stripped := strip_java_modifiers line
  match stripPrefixStr stripped "class " with
  | some rest => (ident rest [' ', lbraceChar, '<']).map (fun n => (ChunkKind.type, n))
  | none =>
  match stripPrefixStr stripped "interface " with
  | some rest => (ident rest [' ', lbraceChar, '<']).map (fun n => (ChunkKind.type, n))
  | none =>
  match stripPrefixStr stripped "enum " with
  | some rest => (ident rest [' ', lbraceChar, '<']).map (fun n => (ChunkKind.type, n))
  | none =>
  match stripPrefixStr stripped "record " with
  | some rest => (ident rest [' ', '(', '<']).map (fun n => (ChunkKind.type, n))
  | none =>
  match stripPrefixStr stripped "@interface " with
  | some rest => (ident rest [' ', lbraceChar]).map (fun n => (ChunkKind.type, n))
  | none =>
  if strContains stripped '(' &&
      !strStartsWith stripped "if " && !strStartsWith stripped "for " &&
      !strStartsWith stripped "while " && !strStartsWith stripped "switch " &&
      !strStartsWith stripped "return " && !strStartsWith stripped "new " &&
      !strStartsWith stripped "super(" && !strStartsWith stripped "this(" then
    match extract_java_method_name stripped with
    | some method_name => some (ChunkKind.function, method_name)
    | none =>
      if strStartsWith line "import " then some (ChunkKind.import, line)
      else if strStartsWith line "package " then some (ChunkKind.import, line)
      else none
  else
    if strStartsWith line "import " then some (ChunkKind.import, line)
    else if strStartsWith line "package " then some (ChunkKind.import, line)
    else none

/-- `extract_ruby`. -/
def extract_ruby (line : String) : Option (ChunkKind × String) :=
  match stripPrefixStr line "def " with
  | some rest0 =>
    -- self.method_name or method_name
    let rest := (stripPrefixStr rest0 "self.").getD rest0
    (ident rest ['(', ' ', ';']).map (fun n => (ChunkKind.function, n))
  | none =>
  match stripPrefixStr line "class " with
  | some rest => (ident rest [' ', '<']).map (fun n => (ChunkKind.type, n))
  | none =>
  match stripPrefixStr line "module " with
  | some rest => (ident rest [' ', ';']).map (fun n => (ChunkKind.type, n))
  | none =>
  if strStartsWith line "require " || strStartsWith line "require_relative " then
    some (ChunkKind.import, line)
  else if strStartsWith line "include " || strStartsWith line "extend " then
    some (ChunkKind.import, line)
  else none

/-- `extract_c_function_name`: last nonempty space/star-separated token
before `(`, validated, excluding operator keywords. -/
def extract_c_function_name (line : String) : Option String :=
  if strContains line '(' then
    let before_paren := listTrim (line.toList.takeWhile (· ≠ '('))
    if before_paren = [] then none
    else
      match (splitOnPred (fun c => c == ' ' || c == '*') before_paren).reverse.find?
          (fun s => !s.isEmpty) with
      | none => none
      | some nameL =>
        let name := String.mk nameL
        match nameL with
        | [] => none
        | c :: _ =>
          if c.isAlpha &&
              nameL.all (fun ch => ch.isAlphanum || ch == '_' || ch == ':') then
            if name = "sizeof" || name = "typeof" || name = "alignof" ||
                name = "defined" then none
            else some name
          else none
  else none

/-- The modifier-stripping chain at the top of `extract_c_cpp`. -/
def cCppStrip (line : String) : String :=
  trimStartMatches (trimStartMatches (trimStartMatches
    (trimStartMatches (trimStartMatches line "static ") "inline ") "extern ")
    "virtual ") "explicit "

/-- The function-detection tail of `extract_c_cpp`. -/
def extract_c_cpp_fn (stripped : String) : Option (ChunkKind × String) :=
  if strContains stripped '(' &&
      !strStartsWith stripped "if " && !strStartsWith stripped "for " &&
      !strStartsWith stripped "while " && !strStartsWith stripped "switch " &&
      !strStartsWith stripped "return " && !strStartsWith stripped "case " &&
      !strStartsWith stripped "else" then
    match extract_c_function_name stripped with
    | some name => some (ChunkKind.function, name)
    | none => none
  else none

/-- The typedef branch of `extract_c_cpp`: `some` when it returns a
chunk, `none` when the branch falls through. -/
def extract_c_cpp_typedef (stripped : String) : Option (ChunkKind × String) :=
  match stripPrefixStr stripped "typedef " with
  | some rest =>
    -- typedef ... Name; → last word before ';'
    match rsplitOnce ' ' (trimEndMatches rest ";") with
    | some (_, nPart) =>
      let n := strTrim nPart
      match n.toList with
      | [] => none
      | c :: _ => if c.isAlpha then some (ChunkKind.type, n) else none
    | none => none
  | none => none

/-- The recursive body of `extract_c_cpp`, with structural fuel: the
only recursion is through `template<...>`, which always lands on a
strictly shorter line (at least the 8-character `template` prefix and
the `>` are consumed), so `line.length + 1` levels suffice. -/
def extract_c_cpp_go : Nat → String → Option (ChunkKind × String)
  | 0, _ => none
  | fuel + 1, line =>
    let stripped := cCppStrip line
    if strStartsWith line "#include" then some (ChunkKind.import, line)
    else
    match stripPrefixStr stripped "struct " with
    | some rest => (ident rest [' ', lbraceChar, ':', ';']).map (fun n => (ChunkKind.type, n))
    | none =>
    match stripPrefixStr stripped "class " with
    | some rest => (ident rest [' ', lbraceChar, ':', ';']).map (fun n => (ChunkKind.type, n))
    | none =>
    match stripPrefixStr stripped "enum " with
    | some rest0 =>
      let rest := (stripPrefixStr rest0 "class ").getD rest0
      (ident rest [' ', lbraceChar, ':', ';']).map (fun n => (ChunkKind.type, n))
    | none =>
    match stripPrefixStr stripped "union " with
    | some rest => (ident rest [' ', lbraceChar, ';']).map (fun n => (ChunkKind.type, n))
    | none =>
    match stripPrefixStr stripped "namespace " with
    | some rest => (ident rest [' ', lbraceChar]).map (fun n => (ChunkKind.type, n))
    | none =>
    match extract_c_cpp_typedef stripped with
    | some hit => some hit
    | none =>
      match stripPrefixStr stripped "template" with
      | some rest =>
        if rest.toList.contains '>' then
          -- template<...> class/struct — recurse on the part after '>'
          extract_c_cpp_go fuel
            (String.mk (listTrim ((rest.toList.dropWhile (· ≠ '>')).drop 1)))
        else extract_c_cpp_fn stripped
      | none => extract_c_cpp_fn stripped

/-- `extract_c_cpp` (recursive through `template<...>`). -/
def extract_c_cpp (line : String) : Option (ChunkKind × String) :=
  extract_c_cpp_go (line.length + 1) line

/-- Rust `str::lines`: split at `\n`, drop a final empty piece, strip a
trailing `\r` from each line. -/
def rustLines (content : String) : List String :=
  let parts := splitOnPred (· == '\n') content.toList
  let parts := if parts.getLast? = some [] then parts.dropLast else parts
  parts.map (fun l => String.mk (if l.getLast? = some '\r' then l.dropLast else l))

/-- The per-line body of `RegexChunker::chunk`: comment/blank filtering,
language dispatch, and chunk construction (`content: String::new()`). -/
def chunkLine (language : Language) (i : Nat) (line : String) : Option Chunk :=
  let trimmed := strTrim line
  if trimmed = "" || strStartsWith trimmed "//" then none
  else if strStartsWith trimmed "#" &&
      !(language = Language.c || language = Language.cpp) then none
  else
    let lineNum := i + 1
    (match language with
      | Language.rust => extract_rust trimmed
      | Language.go => extract_go trimmed
      | Language.python => extract_python trimmed
      | Language.javascript | Language.typescript => extract_js_ts trimmed
      | Language.java => extract_java trimmed
      | Language.ruby => extract_ruby trimmed
      | Language.c | Language.cpp => extract_c_cpp trimmed
      | _ => none).map
        (fun (kn : ChunkKind × String) => Chunk.mk kn.1 kn.2 lineNum lineNum "")

/-- `RegexChunker::chunk`: walk the lines in order, pushing one
single-line chunk per recognised declaration. -/
def RegexChunker.chunk (content : String) (language : Language) : List Chunk :=
  (rustLines content).enum.filterMap (fun p => chunkLine language p.1 p.2)

/-! ### Tree-sitter chunker (`atlas-treesit/src/ts_chunker.rs`)

The tree-sitter parser and query engine are an external library; the
embedding below keeps the repository's own loop (lines 51–97 of
`ts_chunker.rs`) and abstracts the parser's outputs: a query match is a
list of captures, each carrying its capture index and a node with
0-based start/end rows and the `utf8_text` result for the name slice. -/

/-- An abstract tree-sitter node as the chunk loop consumes it. -/
structure TSNode where
  text : Option String
  start_row : Nat
  end_row : Nat
deriving DecidableEq, Repr

/-- One query capture: capture index plus node. -/
structure TSCapture where
  index : Nat
  node : TSNode
deriving DecidableEq, Repr

/-- One query match: its captures in order. -/
structure TSMatch where
  captures : List TSCapture
deriving DecidableEq, Repr

/-- The capture-index table of a compiled grammar entry. -/
structure GrammarEntry where
  function_idx : Option Nat
  type_idx : Option Nat
  impl_idx : Option Nat
  import_idx : Option Nat
  name_idx : Option Nat
deriving DecidableEq, Repr

/-- The capture-classification loop of `TreeSitterChunker::chunk`:
fold over a match's captures accumulating the outer node, the name node
and the chunk kind. -/
def processCaptures (entry : GrammarEntry) (caps : List TSCapture) :
    Option TSNode × Option TSNode × ChunkKind :=
  caps.foldl
    (fun acc capture =>
      let (outer, nameNode, kind) := acc
      if entry.name_idx = some capture.index then (outer, some capture.node, kind)
      else if entry.function_idx = some capture.index then
        (some capture.node, nameNode, ChunkKind.function)
      else if entry.type_idx = some capture.index then
        (some capture.node, nameNode, ChunkKind.type)
      else if entry.impl_idx = some capture.index then
        (some capture.node, nameNode, ChunkKind.impl)
      else if entry.import_idx = some capture.index then
        (some capture.node, nameNode, ChunkKind.import)
      else acc)
    (none, none, ChunkKind.other)

/-- `TreeSitterChunker::chunk` over the query's matches: skip matches
with no outer capture, take the name from the name node's text, 1-based
lines from the node rows, and leave `content` empty
(`let node_content = String::new()`). -/
def TreeSitterChunker.chunkMatches (entry : GrammarEntry) (ms : List TSMatch) :
    List Chunk :=
  ms.filterMap (fun m =>
    let (outer, nameNode, kind) := processCaptures entry m.captures
    match outer with
    | none => none
    | some node =>
      let name := (nameNode.bind (fun n => n.text)).getD ""
      let node_content := ""
      some (Chunk.mk kind name (node.start_row + 1) (node.end_row + 1) node_content))

/-! ### Tokenizers and `IndexBuilder` (`atlas-index/src/builder.rs`) -/

/-- `split_camel_case`: byte-indexed camel/acronym splitting, modelled
on chars (the ASCII case tests make byte and char indices agree at every
split point). -/
def split_camel_case (s : String) : List String :=
  let cs := s.toList
  if cs.isEmpty then []
  else
    let step := fun (st : Nat × List String) (i : Nat) =>
      let (start, parts) := st
      let prevUpper := (cs.getD (i - 1) ' ').isUpper
      let currUpper := (cs.getD i ' ').isUpper
      let currLower := (cs.getD i ' ').isLower
      let splitCamel := !prevUpper && currUpper
      let splitAcronym := prevUpper && currLower && decide (2 ≤ i) &&
        (cs.getD (i - 2) ' ').isUpper
      if splitCamel then
        (i, parts ++ [String.mk ((cs.drop start).take (i - start))])
      else if splitAcronym then
        (i - 1,
          if start < i - 1 then
            parts ++ [String.mk ((cs.drop start).take (i - 1 - start))]
          else parts)
      else (start, parts)
    let fin := (List.range (cs.length - 1)).foldl (fun st j => step st (j + 1)) (0, [])
    if fin.1 < cs.length then fin.2 ++ [String.mk (cs.drop fin.1)] else fin.2

/-- `tokenize_path`: split on `/`, `.`, `-`, `_`, camel-split, drop
tokens shorter than 2, lowercase. -/
def tokenize_path (path : String) : List String :=
  (((splitChars path ['/', '.', '-', '_']).map split_camel_case).flatten.filter
    (fun t => 2 ≤ t.length)).map strToLower

/-- `tokenize_content`: split on non-alphanumeric-non-underscore, then
on `_`, camel-split, drop short tokens, lowercase. -/
def tokenize_content (content : String) : List String :=
  ((((splitOnPred (fun c => !c.isAlphanum && c != '_') content.toList).map
      (fun word => ((splitOnPred (· == '_') word).map
        (fun w => split_camel_case (String.mk w))).flatten)).flatten).filter
    (fun t => 2 ≤ t.length)).map strToLower

/-- `tokenize_identifier`: split on `_`, camel-split, drop short tokens,
lowercase. -/
def tokenize_identifier (name : String) : List String :=
  (((splitChars name ['_']).map split_camel_case).flatten.filter
    (fun t => 2 ≤ t.length)).map strToLower

/-- Which `TermFreqs` field an occurrence counts towards. -/
inductive TFField where
  | filename | symbols | body
deriving DecidableEq, Repr

/-- `*term_frequencies.entry(token).or_default().<field> += 1`. -/
def bumpTF (fld : TFField) (k : String) :
    List (String × TermFreqs) → List (String × TermFreqs)
  | [] =>
    [(k, match fld with
      | TFField.filename => ⟨1, 0, 0⟩
      | TFField.symbols => ⟨0, 1, 0⟩
      | TFField.body => ⟨0, 0, 1⟩)]
  | (a, tf) :: rest =>
    if a = k then
      (a, match fld with
        | TFField.filename => { tf with filename := tf.filename + 1 }
        | TFField.symbols => { tf with symbols := tf.symbols + 1 }
        | TFField.body => { tf with body := tf.body + 1 }) :: rest
    else (a, tf) :: bumpTF fld k rest

/-- Modelled from the spec: `atlas-treesit/src/lib.rs` (the `Chunker`
trait and `default_chunker()`) is not under `src/`; spec §4.2 states the
default chunker used for indexing is the regex backend. -/
def default_chunker_chunk (content : String) (language : Language) : List Chunk :=
  RegexChunker.chunk content language

/-- `build_file_entry(info, content)`. -/
def build_file_entry (info : FileInfo) (content : String) : FileEntry :=
  let filename_tokens := tokenize_path info.path
  let tfs1 := filename_tokens.foldl (fun m token => bumpTF TFField.filename token m) []
  let body_tokens := tokenize_content content
  let doc_length := body_tokens.length
  let tfs2 := body_tokens.foldl (fun m token => bumpTF TFField.body token m) tfs1
  let chunks := default_chunker_chunk content info.language
  let tfs3 := chunks.foldl
    (fun m chunk =>
      if chunk.kind = ChunkKind.function ∨ chunk.kind = ChunkKind.type ∨
          chunk.kind = ChunkKind.impl then
        (tokenize_identifier chunk.name).foldl
          (fun m2 token => bumpTF TFField.symbols token m2) m
      else m)
    tfs2
  { sha256 := info.sha256, chunks := chunks, term_frequencies := tfs3,
    doc_length := doc_length }

/-- Rust `Path::join` for the relative forward-slash paths the code
builds (an absolute right side replaces the left one). -/
def pathJoin (base p : String) : String :=
  if strStartsWith p "/" then p
  else if base = "" then p
  else base ++ "/" ++ p

/-- The corpus statistics computed over an entry list (shared verbatim
by `IndexBuilder::build` and `merge_incremental`). -/
def corpusDocFrequencies (entries : List (String × FileEntry)) : List (String × Nat) :=
  entries.foldl
    (fun df pe => (assocKeys pe.2.term_frequencies).foldl
      (fun df2 term => assocBump term df2) df)
    []

/-- The parallel phase of `IndexBuilder::build`: rayon's ordered
`par_iter().filter_map().collect()` is an order-preserving `filterMap`;
`fs` abstracts `fs::read_to_string(root.join(path)).ok()`. -/
def buildEntries (root : String) (fs : String → Option String)
    (files : List FileInfo) : List (String × FileEntry) :=
  files.filterMap (fun info =>
    (fs (pathJoin root info.path)).map
      (fun content => (info.path, build_file_entry info content)))

/-- `IndexBuilder::build(files)`. -/
def IndexBuilder.build (root : String) (fs : String → Option String)
    (files : List FileInfo) : DeepIndex :=
  let entries := buildEntries root fs files
  let total_docs := entries.length
  let total_length : ℕ := (entries.map (fun pe => pe.2.doc_length)).sum
  let avg_doc_length : ℚ :=
    if total_docs > 0 then (total_length : ℚ) / (total_docs : ℚ) else 1
  let doc_frequencies := corpusDocFrequencies entries
  let file_map := entries.foldl (fun m pe => assocInsert pe.1 pe.2 m) []
  { version := 1, files := file_map, avg_doc_length := avg_doc_length,
    total_docs := total_docs, doc_frequencies := doc_frequencies }

/-! ### Store (`atlas-index/src/store.rs`) -/

/-- `merge_incremental(existing, fresh)`: keep the existing entry for
every path whose SHA-256 matches, take the fresh entry otherwise, carry
forward only paths present in `fresh`, and recompute corpus stats from
the merged map. -/
def merge_incremental (existing fresh : DeepIndex) : DeepIndex :=
  let merged_files := fresh.files.foldl
    (fun m pe =>
      match assocFind? pe.1 existing.files with
      | some old_entry =>
        if old_entry.sha256 = pe.2.sha256 then assocInsert pe.1 old_entry m
        else assocInsert pe.1 pe.2 m
      | none => assocInsert pe.1 pe.2 m)
    []
  let total_docs := merged_files.length
  let total_length : ℕ := (merged_files.map (fun pe => pe.2.doc_length)).sum
  let avg_doc_length : ℚ :=
    if total_docs > 0 then (total_length : ℚ) / (total_docs : ℚ) else 1
  let doc_frequencies := corpusDocFrequencies merged_files
  { version := fresh.version, files := merged_files,
    avg_doc_length := avg_doc_length, total_docs := total_docs,
    doc_frequencies := doc_frequencies }

/-- Serializable per-term frequencies (`StoredTermFreqs`). -/
structure StoredTermFreqs where
  filename : Nat
  symbols : Nat
  body : Nat
deriving DecidableEq, Repr

/-- Serializable chunk (`StoredChunk`). -/
structure StoredChunk where
  kind : String
  name : String
  start_line : Nat
  end_line : Nat
  content : String
deriving DecidableEq, Repr

/-- Serializable per-file entry (`StoredFileEntry`); the SHA-256 is a
`Vec<u8>` of unconstrained length. -/
structure StoredFileEntry where
  sha256 : List Nat
  doc_length : Nat
  term_frequencies : List (String × StoredTermFreqs)
  chunks : List StoredChunk
deriving DecidableEq, Repr

/-- Serializable index (`StoredIndex`). -/
structure StoredIndex where
  version : Nat
  total_docs : Nat
  avg_doc_length : ℚ
  doc_frequencies : List (String × Nat)
  files : List (String × StoredFileEntry)
deriving DecidableEq, Repr

/-- `chunk_kind_to_str`. -/
def chunk_kind_to_str : ChunkKind → String
  | ChunkKind.function => "function"
  | ChunkKind.type => "type"
  | ChunkKind.impl => "impl"
  | ChunkKind.import => "import"
  | ChunkKind.other => "other"

/-- `str_to_chunk_kind`. -/
def str_to_chunk_kind (s : String) : ChunkKind :=
  if s = "function" then ChunkKind.function
  else if s = "type" then ChunkKind.type
  else if s = "impl" then ChunkKind.impl
  else if s = "import" then ChunkKind.import
  else ChunkKind.other

/-- The per-file conversion inside `from_stored`: a stored SHA whose
byte vector is not exactly 32 bytes is coerced to all zeroes
(`entry.sha256.try_into().unwrap_or([0u8; 32])`). -/
def fileEntryFromStored (se : StoredFileEntry) : FileEntry :=
  { sha256 := if se.sha256.length = 32 then se.sha256 else List.replicate 32 0
    doc_length := se.doc_length
    term_frequencies := se.term_frequencies.map (fun tf =>
      (tf.1, TermFreqs.mk tf.2.filename tf.2.symbols tf.2.body))
    chunks := se.chunks.map (fun c =>
      Chunk.mk (str_to_chunk_kind c.kind) c.name c.start_line c.end_line c.content) }

/-- `from_stored`: rebuild a `DeepIndex` from the serialized form. -/
def from_stored (stored : StoredIndex) : DeepIndex :=
  { version := stored.version,
    files := stored.files.map (fun pe => (pe.1, fileEntryFromStored pe.2)),
    total_docs := stored.total_docs,
    avg_doc_length := stored.avg_doc_length,
    doc_frequencies := stored.doc_frequencies }

/-- The on-disk state `load` observes: the index file may be absent, or
present with bytes whose deserialization fails (`fs::read` errors
propagate identically through `?` and are folded into this case), or a
deserialized `StoredIndex`. -/
inductive IndexFile where
  | absent
  | malformed (e : String)
  | stored (s : StoredIndex)
deriving DecidableEq, Repr

/-- `load`: `Ok(None)` when the file does not exist, the propagated
error when deserialization fails, otherwise the converted index. -/
def load : IndexFile → Except String (Option DeepIndex)
  | IndexFile.absent => Except.ok none
  | IndexFile.malformed e => Except.error e
  | IndexFile.stored s => Except.ok (some (from_stored s))

/-- Modelled from the spec: the spec's core API reads
`build_index(root, files, existing?) → (DeepIndex, changed_count)`, but
no changed-file count is computed anywhere under `src/` (the CLI prints
only totals).  Per the spec's words a file is changed when its SHA-256
does not match the existing entry, so the count is the number of fresh
entries not SHA-matched by the existing index. -/
def changedCount (existing fresh : DeepIndex) : Nat :=
  fresh.files.countP (fun pe =>
    match assocFind? pe.1 existing.files with
    | some ee => decide (ee.sha256 ≠ pe.2.sha256)
    | none => true)

/-! ### Import resolution (`atlas-score/src/resolve.rs`) -/

/-- `VENDORED_DIRS`. -/
def VENDORED_DIRS : List String := ["vendor", "node_modules", "third_party"]

/-- `is_vendored`: any `/`- or `\`-separated component is vendored. -/
def is_vendored (path : String) : Bool :=
  ((splitOnPred (fun c => c == '/' || c == '\\') path.toList).map String.mk).any
    (fun component => VENDORED_DIRS.contains component)

/-- `Path::file_name` for the normalized relative forward-slash paths
the resolver handles: the last `/`-component, unless empty or `..`. -/
def pathFileName (p : String) : Option String :=
  if p = "" then none
  else
    match ((splitOnPred (· == '/') p.toList).map String.mk).getLast? with
    | some last => if last = "" || last = ".." then none else some last
    | none => none

/-- Join path components with `/` separators. -/
def joinSlash (parts : List String) : String :=
  String.mk (((parts.map String.toList).intersperse ['/']).flatten)

/-- `Path::parent` for normalized relative paths: drop the last
component (`some ""` for a bare file name, `none` for the empty path). -/
def pathParent (p : String) : Option String :=
  if p = "" then none
  else
    let comps := (splitOnPred (· == '/') p.toList).map String.mk
    if comps.length ≤ 1 then some ""
    else some (joinSlash comps.dropLast)

/-- `Path::file_stem`: the file name up to its final `.`; a leading dot
with no other dot keeps the whole name. -/
def pathFileStem (p : String) : Option String :=
  match pathFileName p with
  | none => none
  | some name =>
    let cs := name.toList
    if !cs.contains '.' then some name
    else if cs.headD ' ' = '.' && !(cs.drop 1).contains '.' then some name
    else some (String.mk (((cs.reverse.dropWhile (· ≠ '.')).drop 1).reverse))

/-- `Path::with_extension("")`: the path with the extension removed. -/
def pathWithoutExtension (p : String) : String :=
  match pathFileStem p with
  | some stem =>
    let comps := (splitOnPred (· == '/') p.toList).map String.mk
    joinSlash (comps.dropLast ++ [stem])
  | none => p

/-- The two lookup indices (`RepoIndex`). -/
structure RepoIndex where
  stem : List (String × List String)
  dir : List (String × List String)

/-- `map.entry(k).or_default().push(v)` on a `HashMap<String, Vec<String>>`. -/
def indexPush (k v : String) : List (String × List String) → List (String × List String)
  | [] => [(k, [v])]
  | (a, vs) :: rest =>
    if a = k then (a, vs ++ [v]) :: rest else (a, vs) :: indexPush k v rest

/-- `build_file_index`. -/
def build_file_index (paths : List String) : RepoIndex :=
  paths.foldl
    (fun idx path =>
      let stemIdx :=
        match pathFileStem path with
        | some stem =>
          let s1 := indexPush (strToLower stem) path idx.stem
          -- For mod.rs / index.js / __init__.py, also index the parent directory name
          if stem = "mod" || stem = "index" || stem = "__init__" then
            match (pathParent path).bind pathFileName with
            | some parentName => indexPush (strToLower parentName) path s1
            | none => s1
          else s1
        | none => idx.stem
      let dirIdx :=
        match (pathParent path).bind pathFileName with
        | some parentName => indexPush (strToLower parentName) path idx.dir
        | none => idx.dir
      RepoIndex.mk stemIdx dirIdx)
    (RepoIndex.mk [] [])

/-- `file_index.get(&key).cloned().unwrap_or_default()`. -/
def indexGet (key : String) (m : List (String × List String)) : List String :=
  (assocFind? key m).getD []

/-- All path values stored in a stem/dir map. -/
def indexValues (m : List (String × List String)) : List String :=
  (m.map Prod.snd).flatten

/-- `resolve_rust`. -/
def resolve_rust (module : String) (file_index : List (String × List String)) :
    List String :=
  indexGet (strToLower module) file_index

/-- `resolve_js`. -/
def resolve_js (import_path importing_file : String)
    (file_index : List (String × List String)) : List String :=
  if strStartsWith import_path "." then
    -- Relative import: resolve relative to importing file's directory
    let base := (pathParent importing_file).getD ""
    let resolved := pathJoin base import_path
    let stem := (pathFileStem resolved).getD ""
    if stem = "" then []
    else
      let candidates := indexGet (strToLower stem) file_index
      -- Try to narrow to files near the expected path
      let near := candidates.filter (fun c =>
        pathWithoutExtension c = resolved || strStartsWith c resolved)
      if near.isEmpty then candidates else near
  else
    -- Bare specifier: match last path segment against file stems
    let segment :=
      (((splitOnPred (· == '/') import_path.toList).map String.mk).getLast?).getD
        import_path
    indexGet (strToLower segment) file_index

/-- `resolve_python`. -/
def resolve_python (import_path importing_file : String)
    (file_index : List (String × List String)) : List String :=
  if strStartsWith import_path "." then
    let module := String.mk (import_path.toList.dropWhile (· == '.'))
    if module = "" then
      -- `from . import X` — try the parent package
      let parent := ((pathParent importing_file).bind pathFileName).getD ""
      indexGet (strToLower parent) file_index
    else
      let parts := (splitOnPred (· == '.') module.toList).map String.mk
      indexGet (strToLower ((parts.getLast?).getD "")) file_index
  else
    -- Absolute import: try last segment first (more specific), then first
    let parts := (splitOnPred (· == '.') import_path.toList).map String.mk
    let tries := ([parts.getLast?, parts.head?].filterMap id)
    tries.foldl
      (fun acc segment =>
        if acc.isEmpty then indexGet (strToLower segment) file_index else acc)
      []

/-- `resolve_go`. -/
def resolve_go (import_path : String) (index : RepoIndex) : List String :=
  -- rsplitn(3, '/'): first element is the last segment, second the penultimate
  let comps := (splitOnPred (· == '/') import_path.toList).map String.mk
  let last := (comps.getLast?).getD ""
  if last = "" then []
  else
    let last_lower := strToLower last
    let dir_candidates := indexGet last_lower index.dir
    if !dir_candidates.isEmpty then
      match comps.dropLast.getLast? with
      | some penultimate =>
        let pen_lower := strToLower penultimate
        let narrowed := dir_candidates.filter (fun path =>
          match ((pathParent path).bind pathParent).bind pathFileName with
          | some gp_name => strToLower gp_name = pen_lower
          | none => false)
        if !narrowed.isEmpty then narrowed else dir_candidates
      | none => dir_candidates
    else
      -- Fallback: stem-based matching
      indexGet last_lower index.stem

/-- `resolve_java` (also Kotlin). -/
def resolve_java (import_path : String) (file_index : List (String × List String)) :
    List String :=
  let path := trimEndMatches import_path ".*"
  let segment := (((splitOnPred (· == '.') path.toList).map String.mk).getLast?).getD path
  indexGet (strToLower segment) file_index

/-- `resolve_c_include`.  The Rust code scans every value list for an
exact match of the resolved path and returns that one path; membership
in the joined values is the order-independent equivalent. -/
def resolve_c_include (include_path importing_file : String)
    (file_index : List (String × List String)) : List String :=
  let base := (pathParent importing_file).getD ""
  let resolved := pathJoin base include_path
  if (indexValues file_index).contains resolved then [resolved]
  else
    let stem := (pathFileStem include_path).getD ""
    indexGet (strToLower stem) file_index

/-- `resolve_ruby`. -/
def resolve_ruby (import_path importing_file : String)
    (file_index : List (String × List String)) : List String :=
  let segment :=
    (((splitOnPred (· == '/') import_path.toList).map String.mk).getLast?).getD
      import_path
  let stem_lower := strToLower segment
  if strContains import_path '/' || strStartsWith import_path "." then
    let base := (pathParent importing_file).getD ""
    let resolved := pathJoin base import_path
    let candidates := indexGet stem_lower file_index
    let near := candidates.filter (fun c => pathWithoutExtension c = resolved)
    if !near.isEmpty then near
    else indexGet stem_lower file_index
  else indexGet stem_lower file_index

/-- `resolve_swift`. -/
def resolve_swift (module : String) (file_index : List (String × List String)) :
    List String :=
  indexGet (strToLower module) file_index

/-- `resolve_elixir`: try stems of `.`-segments right to left. -/
def resolve_elixir (module_path : String)
    (file_index : List (String × List String)) : List String :=
  (((splitOnPred (· == '.') module_path.toList).map String.mk).reverse).foldl
    (fun acc segment =>
      if acc.isEmpty then indexGet (strToLower segment) file_index else acc)
    []

/-- `resolve_php`. -/
def resolve_php (import_path importing_file : String)
    (file_index : List (String × List String)) : List String :=
  if strContains import_path '\\' then
    -- Namespace import: match last segment
    let segment :=
      (((splitOnPred (· == '\\') import_path.toList).map String.mk).getLast?).getD
        import_path
    indexGet (strToLower segment) file_index
  else
    let base := (pathParent importing_file).getD ""
    let resolved := pathJoin base import_path
    if (indexValues file_index).contains resolved then [resolved]
    else
      let stem := (pathFileStem import_path).getD ""
      indexGet (strToLower stem) file_index

/-- `resolve_scala`. -/
def resolve_scala (import_path : String) (file_index : List (String × List String)) :
    List String :=
  let segment :=
    (((splitOnPred (· == '.') import_path.toList).map String.mk).getLast?).getD
      import_path
  indexGet (strToLower segment) file_index

/-- `resolve_r`. -/
def resolve_r (import_path importing_file : String)
    (file_index : List (String × List String)) : List String :=
  if strContains import_path '/' || strContains import_path '.' then
    let base := (pathParent importing_file).getD ""
    let resolved := pathJoin base import_path
    if (indexValues file_index).contains resolved then [resolved]
    else
      let stem := (pathFileStem import_path).getD ""
      indexGet (strToLower stem) file_index
  else
    indexGet (strToLower import_path) file_index

/-- `resolve_shell`. -/
def resolve_shell (import_path importing_file : String)
    (file_index : List (String × List String)) : List String :=
  let base := (pathParent importing_file).getD ""
  let resolved := pathJoin base import_path
  if (indexValues file_index).contains resolved then [resolved]
  else
    let stem := (pathFileStem import_path).getD ""
    indexGet (strToLower stem) file_index

/-- `resolve_import`: per-language dispatch, then self-import filter. -/
def resolve_import (raw_import importing_file : String) (language : Language)
    (file_index : RepoIndex) : List String :=
  let candidates :=
    match language with
    | Language.rust => resolve_rust raw_import file_index.stem
    | Language.javascript | Language.typescript =>
      resolve_js raw_import importing_file file_index.stem
    | Language.python => resolve_python raw_import importing_file file_index.stem
    | Language.go => resolve_go raw_import file_index
    | Language.java | Language.kotlin => resolve_java raw_import file_index.stem
    | Language.c | Language.cpp =>
      resolve_c_include raw_import importing_file file_index.stem
    | Language.ruby => resolve_ruby raw_import importing_file file_index.stem
    | Language.swift => resolve_swift raw_import file_index.stem
    | Language.elixir => resolve_elixir raw_import file_index.stem
    | Language.php => resolve_php raw_import importing_file file_index.stem
    | Language.scala => resolve_scala raw_import file_index.stem
    | Language.r => resolve_r raw_import importing_file file_index.stem
    | Language.shell => resolve_shell raw_import importing_file file_index.stem
    | _ => []
  -- Filter out self-imports
  candidates.filter (fun c => c ≠ importing_file)

/-! ### Import graph and PageRank (`atlas-score/src/pagerank.rs`) -/

/-- `ImportGraph`: adjacency map plus node list. -/
structure ImportGraph where
  edges : List (String × List String)
  nodes : List String
deriving DecidableEq, Repr

/-- `ImportGraph::new()`. -/
def ImportGraph.new : ImportGraph := ⟨[], []⟩

/-- `ImportGraph::add_node`. -/
def ImportGraph.add_node (g : ImportGraph) (path : String) : ImportGraph :=
  if (assocFind? path g.edges).isSome then g
  else ⟨g.edges ++ [(path, [])], g.nodes ++ [path]⟩

/-- `edges.get_mut(k).unwrap().push(v)` (`k` is present by
construction). -/
def pushAdj (k v : String) (m : List (String × List String)) :
    List (String × List String) :=
  m.map (fun pe => if pe.1 = k then (pe.1, pe.2 ++ [v]) else pe)

/-- `ImportGraph::add_edge`: `src` imports `dst`. -/
def ImportGraph.add_edge (g : ImportGraph) (src dst : String) : ImportGraph :=
  let g1 := (g.add_node src).add_node dst
  ⟨pushAdj src dst g1.edges, g1.nodes⟩

/-- `build_import_graph`. -/
def build_import_graph (file_imports : List (String × Language × List String))
    (all_paths : List String) : ImportGraph :=
  -- Filter out vendored paths before building the file index and graph
  let non_vendored := all_paths.filter (fun p => !is_vendored p)
  let file_index := build_file_index non_vendored
  -- Add only non-vendored files as nodes
  let g := non_vendored.foldl (fun g p => g.add_node p) ImportGraph.new
  -- Resolve imports and add edges (only from non-vendored files)
  file_imports.foldl
    (fun g fi =>
      if is_vendored fi.1 then g
      else fi.2.2.foldl
        (fun g raw =>
          (resolve_import raw fi.1 fi.2.1 file_index).foldl
            (fun g target => g.add_edge fi.1 target) g)
        g)
    g

/-- PageRank damping factor `DAMPING`. -/
def DAMPING : ℚ := 85 / 100

/-- Convergence threshold `EPSILON` (`1e-6`). -/
def EPSILON : ℚ := 1 / 1000000

/-- Iteration cap `MAX_ITERATIONS`. -/
def MAX_ITERATIONS : Nat := 100

/-- One power-iteration sweep: compute each node's new rank from the
incoming edges, tracking the maximum per-node change. -/
def pagerankSweep (nodes : List String) (incoming : List (String × List String))
    (out_degree : List (String × Nat)) (n : Nat) (initial : ℚ)
    (scores : List (String × ℚ)) : List (String × ℚ) × ℚ :=
  nodes.foldl
    (fun acc node =>
      let rank0 := (1 - DAMPING) / (n : ℚ)
      let rank :=
        match assocFind? node incoming with
        | some inbound =>
          inbound.foldl
            (fun r src =>
              let src_out := ((assocFind? src out_degree).getD 1 : Nat)
              let src_score := (assocFind? src scores).getD initial
              r + DAMPING * src_score / (src_out : ℚ))
            rank0
        | none => rank0
      let old := (assocFind? node scores).getD initial
      (acc.1 ++ [(node, rank)], max acc.2 |rank - old|))
    ([], 0)

/-- The iteration loop of `pagerank`, with the remaining iteration count
as fuel. -/
def pagerankLoop (nodes : List String) (incoming : List (String × List String))
    (out_degree : List (String × Nat)) (n : Nat) (initial : ℚ) :
    Nat → List (String × ℚ) → List (String × ℚ)
  | 0, scores => scores
  | fuel + 1, scores =>
    let sweep := pagerankSweep nodes incoming out_degree n initial scores
    if sweep.2 < EPSILON then sweep.1
    else pagerankLoop nodes incoming out_degree n initial fuel sweep.1

/-- `ImportGraph::pagerank` over exact rationals. -/
def ImportGraph.pagerank (g : ImportGraph) : List (String × ℚ) :=
  let n := g.nodes.length
  if n = 0 then []
  else
    let initial : ℚ := 1 / (n : ℚ)
    let scores := g.nodes.map (fun node => (node, initial))
    -- Build reverse edges (who imports each file)
    let incoming0 := g.nodes.map (fun node => (node, ([] : List String)))
    let incoming := g.edges.foldl
      (fun inc fe => fe.2.foldl (fun inc dst => pushAdj dst fe.1 inc) inc)
      incoming0
    -- Outgoing edge counts
    let out_degree := g.edges.map (fun pe => (pe.1, pe.2.length))
    pagerankLoop g.nodes incoming out_degree n initial MAX_ITERATIONS scores

/-! ### Scanner (`topo-scanner/src/scanner.rs`) -/

/-- `Scanner::ALWAYS_SKIP_DIRS`, exactly as in the source. -/
def ALWAYS_SKIP_DIRS : List String :=
  [".git", "node_modules", ".topo", "__pycache__", ".venv", "venv", ".env",
    ".svn", ".hg"]

/-- `Scanner::scan`, modelled on the walk's inclusion logic over
relative paths given as component lists: `filter_entry` prunes every
directory whose basename is hard-blocked (so every file below it is
skipped), and the `ignored` predicate stands for the walker's gitignore
machinery (`hidden(false)`: no dotfile rule).  A file survives iff no
ancestor directory is hard-blocked and it is not ignored. -/
def Scanner.scan (ignored : List String → Bool) (files : List (List String)) :
    List (List String) :=
  files.filter (fun f =>
    !(f.dropLast.any (fun d => ALWAYS_SKIP_DIRS.contains d)) && !ignored f)

/-- The entry `merge_incremental` stores for path `p` carrying fresh
value `v`: the existing entry when its SHA-256 matches, else `v`. -/
def mergeChoose (existing : DeepIndex) (p : String) (v : FileEntry) : FileEntry :=
  match assocFind? p existing.files with
  | some old_entry => if old_entry.sha256 = v.sha256 then old_entry else v
  | none => v

/-- The S3 repository's lookup indices: two Go files whose directory is
named `v1` and a yaml file whose stem is `v1`. -/
def c3idx : RepoIndex :=
  build_file_index
    ["api/core/v1/types.go", "api/apps/v1/deploy.go", "testdata/v1.yaml"]

/-- A two-node graph with the single edge `a.rs → b.rs`, so `b.rs` is a
dangling node (no outgoing edges). -/
def c8g : ImportGraph := ImportGraph.add_edge ImportGraph.new "a.rs" "b.rs"

/-- A persisted index whose version tag (0) is below the current
version and which deserializes successfully. -/
def c6stored : StoredIndex :=
  { version := 0, total_docs := 0, avg_doc_length := 1,
    doc_frequencies := [], files := [] }

/-- A persisted index whose only entry carries a 3-byte stored SHA. -/
def c10stored : StoredIndex :=
  { version := 1, total_docs := 1, avg_doc_length := 1,
    doc_frequencies := [("fn", 1)],
    files := [("a.rs",
      { sha256 := [1, 2, 3], doc_length := 2,
        term_frequencies := [], chunks := [] })] }

/-- The fresh entry for `a.rs` carrying the file's real (non-zero)
SHA-256. -/
def c10entry : FileEntry :=
  { sha256 := List.replicate 32 7, chunks := [],
    term_frequencies := [], doc_length := 2 }

/-- A fresh one-file index carrying `c10entry`. -/
def c10fresh : DeepIndex :=
  { version := 1, files := [("a.rs", c10entry)], avg_doc_length := 1,
    total_docs := 1, doc_frequencies := [] }

/-- A concrete Rust file record used by the corpus-stats statements. -/
def c4info : FileInfo :=
  { path := "a.rs", size := 9, language := Language.rust,
    role := FileRole.implementation, sha256 := List.replicate 32 1 }

/-- A one-file filesystem for the corpus-stats statements. -/
def c4fs : String → Option String :=
  fun p => if p = "root/a.rs" then some "fn ab() {}" else none

/-- The index `IndexBuilder::build` produces when the same path appears
twice in the input list. -/
def c4idx : DeepIndex := IndexBuilder.build "root" c4fs [c4info, c4info]

/-- A persisted entry whose SHA matches `c4info` but whose cached data
differs from a rebuild, to make entry reuse observable. -/
def c2oldEntry : FileEntry :=
  { sha256 := List.replicate 32 1, chunks := [], term_frequencies := [],
    doc_length := 3 }

/-- A fresh entry for the same path with the same SHA. -/
def c2freshEntry : FileEntry :=
  { sha256 := List.replicate 32 1, chunks := [], term_frequencies := [],
    doc_length := 7 }

/-- An existing one-file index whose entry SHA-matches `c4info`. -/
def c2existing : DeepIndex :=
  { version := 1, files := [("a.rs", c2oldEntry)], avg_doc_length := 3,
    total_docs := 1, doc_frequencies := [] }

/-- A fresh one-file index for the same path with a matching SHA. -/
def c2fresh : DeepIndex :=
  { version := 1, files := [("a.rs", c2freshEntry)], avg_doc_length := 7,
    total_docs := 1, doc_frequencies := [] }

/-- A reusable concrete `ScoredFile` with the given token count. -/
def sampleFile (tokens : Nat) : ScoredFile :=
  { path := "a.rs", score := 0, signals := ⟨0, 0, none, none, none⟩,
    tokens := tokens, language := Language.rust, role := FileRole.implementation }

theorem enforceGo_eq_append_take (b : TokenBudget) :
    ∀ (files acc : List ScoredFile) (tb tt : Nat),
      enforceGo b files acc tb tt =
        acc ++ files.take (stopCount b files acc.isEmpty tb tt) := by
  intro files
  induction files with
  | nil => intro acc tb tt; simp [enforceGo, stopCount]
  | cons f rest ih =>
    intro acc tb tt
    by_cases h1 : (capExceeded b.max_bytes tb (f.tokens * 4 % U64) && !acc.isEmpty) = true
    · simp [enforceGo, stopCount, h1]
    · by_cases h2 : (capExceeded b.max_tokens tt f.tokens && !acc.isEmpty) = true
      · simp [enforceGo, stopCount, h1, h2]
      · rw [enforceGo, stopCount]
        simp only [if_neg h1, if_neg h2]
        rw [ih]
        have hne : (acc ++ [f]).isEmpty = false := by simp
        rw [hne, List.take_succ_cons]
        simp

theorem enforce_eq_take (b : TokenBudget) (files : List ScoredFile) :
    b.enforce files = files.take (stopCount b files true 0 0) := by
  have h := enforceGo_eq_append_take b files [] 0 0
  simpa [TokenBudget.enforce] using h

/-- `stopCount` with an already-nonempty result is characterised by the
spec-side inclusion test. -/
theorem stopCount_spec (b : TokenBudget) :
    ∀ (files : List ScoredFile) (e : Bool) (tb tt : Nat),
      (∀ i, i < stopCount b files e tb tt →
        specIncludedFrom b e tb tt files i = true) ∧
      (stopCount b files e tb tt < files.length →
        specIncludedFrom b e tb tt files (stopCount b files e tb tt) = false) := by
  intro files
  induction files with
  | nil =>
    intro e tb tt
    constructor
    · intro i hi; simp [stopCount] at hi
    · intro h; simp at h
  | cons f rest ih =>
    intro e tb tt
    by_cases h1 : (capExceeded b.max_bytes tb (f.tokens * 4 % U64) && !e) = true
    · have hstop : stopCount b (f :: rest) e tb tt = 0 := by
        simp [stopCount, h1]
      rw [hstop]
      constructor
      · intro i hi; omega
      · intro _
        have he : e = false := by
          rcases Bool.and_eq_true_iff.mp h1 with ⟨_, h⟩
          simpa using h
        obtain ⟨m, hm, hgt⟩ : ∃ m, b.max_bytes = some m ∧
            (tb + f.tokens * 4) % U64 > m := by
          rcases Bool.and_eq_true_iff.mp h1 with ⟨h, _⟩
          cases hmb : b.max_bytes with
          | none => rw [hmb] at h; simp [capExceeded] at h
          | some m =>
            rw [hmb] at h
            exact ⟨m, rfl, by simpa [capExceeded, Nat.add_mod_mod] using h⟩
        simp only [specIncludedFrom, he, Bool.false_and, Bool.false_or]
        apply Bool.and_eq_false_iff.mpr
        left
        simp [capOk, hm, runBytes, List.take_succ_cons, bytesOf]
        omega
    · by_cases h2 : (capExceeded b.max_tokens tt f.tokens && !e) = true
      · have hstop : stopCount b (f :: rest) e tb tt = 0 := by
          simp [stopCount, h1, h2]
        rw [hstop]
        constructor
        · intro i hi; omega
        · intro _
          have he : e = false := by
            rcases Bool.and_eq_true_iff.mp h2 with ⟨_, h⟩
            simpa using h
          obtain ⟨m, hm, hgt⟩ : ∃ m, b.max_tokens = some m ∧
              (tt + f.tokens) % U64 > m := by
            rcases Bool.and_eq_true_iff.mp h2 with ⟨h, _⟩
            cases hmb : b.max_tokens with
            | none => rw [hmb] at h; simp [capExceeded] at h
            | some m =>
              rw [hmb] at h
              exact ⟨m, rfl, by simpa [capExceeded] using h⟩
          simp only [specIncludedFrom, he, Bool.false_and, Bool.false_or]
          apply Bool.and_eq_false_iff.mpr
          right
          simp [capOk, hm, runTokens, List.take_succ_cons]
          omega
      · have hstop : stopCount b (f :: rest) e tb tt =
            stopCount b rest false ((tb + f.tokens * 4 % U64) % U64)
              ((tt + f.tokens) % U64) + 1 := by
          rw [stopCount]
          rw [if_neg (by simp [h1]), if_neg (by simp [h2])]
        rw [hstop]
        obtain ⟨ihA, ihB⟩ := ih false ((tb + f.tokens * 4 % U64) % U64)
          ((tt + f.tokens) % U64)
        have hshift : ∀ j, specIncludedFrom b e tb tt (f :: rest) (j + 1) =
            specIncludedFrom b false ((tb + f.tokens * 4 % U64) % U64)
              ((tt + f.tokens) % U64) rest j := by
          intro j
          simp [specIncludedFrom, runBytes, runTokens, List.take_succ_cons, bytesOf]
        constructor
        · intro i hi
          match i with
          | 0 =>
            cases he : e with
            | true => simp [specIncludedFrom, he]
            | false =>
              have hb : capExceeded b.max_bytes tb (f.tokens * 4 % U64) = false := by
                cases hcb : capExceeded b.max_bytes tb (f.tokens * 4 % U64) with
                | false => rfl
                | true => exact absurd (by simp [hcb, he]) h1
              have ht : capExceeded b.max_tokens tt f.tokens = false := by
                cases hct : capExceeded b.max_tokens tt f.tokens with
                | false => rfl
                | true => exact absurd (by simp [hct, he]) h2
              simp only [specIncludedFrom, he, Bool.false_and, Bool.false_or]
              apply Bool.and_eq_true_iff.mpr
              constructor
              · cases hmb : b.max_bytes with
                | none => simp [capOk]
                | some m =>
                  rw [hmb] at hb
                  simp only [capExceeded, decide_eq_false_iff_not, not_lt,
                    Nat.add_mod_mod] at hb
                  simp [capOk, runBytes, List.take_succ_cons, bytesOf]
                  omega
              · cases hmt : b.max_tokens with
                | none => simp [capOk]
                | some m =>
                  rw [hmt] at ht
                  simp only [capExceeded, decide_eq_false_iff_not, not_lt] at ht
                  simp [capOk, runTokens, List.take_succ_cons]
                  omega
          | j + 1 =>
            rw [hshift j]
            exact ihA j (by omega)
        · intro hlen
          rw [hshift]
          apply ihB
          simpa using hlen

/-- Lists taken to a larger count extend lists taken to a smaller one. -/
theorem take_isPrefix_take {α : Type} (l : List α) {m n : Nat} (h : m ≤ n) :
    l.take m <+: l.take n := by
  have h1 : (l.take n).take m = l.take m := by
    rw [List.take_take]
    simp [Nat.min_eq_left h]
  rw [← h1]
  exact List.take_prefix m (l.take n)

/-- A smaller budget stops no later than a larger one. -/
theorem stopCount_mono (b c : TokenBudget) (hbc : budgetLe b c = true) :
    ∀ (files : List ScoredFile) (e : Bool) (tb tt : Nat),
      stopCount b files e tb tt ≤ stopCount c files e tb tt := by
  have hcap : ∀ (cb cc : Option Nat) (total add : Nat), capLe cb cc = true →
      capExceeded cc total add = true → capExceeded cb total add = true := by
    intro cb cc total add hle hex
    cases cc with
    | none => simp [capExceeded] at hex
    | some m2 =>
      cases cb with
      | none => simp [capLe] at hle
      | some m1 =>
        simp only [capLe, decide_eq_true_eq] at hle
        simp only [capExceeded, decide_eq_true_eq] at hex ⊢
        omega
  obtain ⟨hb, ht⟩ := Bool.and_eq_true_iff.mp hbc
  intro files
  induction files with
  | nil => intro e tb tt; simp [stopCount]
  | cons f rest ih =>
    intro e tb tt
    by_cases h1 : (capExceeded b.max_bytes tb (f.tokens * 4 % U64) && !e) = true
    · have : stopCount b (f :: rest) e tb tt = 0 := by simp [stopCount, h1]
      omega
    · by_cases h2 : (capExceeded b.max_tokens tt f.tokens && !e) = true
      · have : stopCount b (f :: rest) e tb tt = 0 := by simp [stopCount, h1, h2]
        omega
      · have hc1 : (capExceeded c.max_bytes tb (f.tokens * 4 % U64) && !e) = false := by
          cases hx : capExceeded c.max_bytes tb (f.tokens * 4 % U64) with
          | false => simp
          | true =>
            have := hcap _ _ _ _ hb hx
            cases he : e with
            | false => exact absurd (by simp [this, he]) h1
            | true => simp [he]
        have hc2 : (capExceeded c.max_tokens tt f.tokens && !e) = false := by
          cases hx : capExceeded c.max_tokens tt f.tokens with
          | false => simp
          | true =>
            have := hcap _ _ _ _ ht hx
            cases he : e with
            | false => exact absurd (by simp [this, he]) h2
            | true => simp [he]
        have hsb : stopCount b (f :: rest) e tb tt =
            stopCount b rest false ((tb + f.tokens * 4 % U64) % U64)
              ((tt + f.tokens) % U64) + 1 := by
          rw [stopCount]
          rw [if_neg (by simp [h1]), if_neg (by simp [h2])]
        have hsc : stopCount c (f :: rest) e tb tt =
            stopCount c rest false ((tb + f.tokens * 4 % U64) % U64)
              ((tt + f.tokens) % U64) + 1 := by
          rw [stopCount]
          rw [if_neg (by simp [hc1]), if_neg (by simp [hc2])]
        rw [hsb, hsc]
        exact Nat.succ_le_succ (ih false _ _)

/-- C1.  `TokenBudget::enforce` walks the list keeping wrapped running
sums of bytes (tokens·4) and tokens; the `i`-th file is included iff the
result so far is empty or adding it keeps every set cap satisfied, and
the walk halts at the first violation (the kept files are exactly an
initial segment validated by `specIncluded`).  Consequently the output
is a prefix of the input, is non-empty whenever the input is, and a
larger budget yields a superset (indeed an extension) of a smaller one. -/
theorem c1_token_budget_enforce (b : TokenBudget) (files : List ScoredFile) :
    (b.enforce files) <+: files ∧
    (files ≠ [] → b.enforce files ≠ []) ∧
    (∀ i, i < (b.enforce files).length → specIncluded b files i = true) ∧
    ((b.enforce files).length < files.length →
      specIncluded b files (b.enforce files).length = false) ∧
    (∀ c : TokenBudget, budgetLe b c = true →
      b.enforce files <+: c.enforce files ∧
      ∀ f ∈ b.enforce files, f ∈ c.enforce files) := by
  have htake := enforce_eq_take b files
  have hspec := stopCount_spec b files true 0 0
  have hlen : (b.enforce files).length = min (stopCount b files true 0 0) files.length := by
    rw [htake]; simp
  refine ⟨?_, ?_, ?_, ?_, ?_⟩
  · rw [htake]; exact List.take_prefix _ _
  · intro hne
    cases files with
    | nil => exact absurd rfl hne
    | cons f rest =>
      rw [htake]
      have : stopCount b (f :: rest) true 0 0 =
          stopCount b rest false ((0 + f.tokens * 4 % U64) % U64)
            ((0 + f.tokens) % U64) + 1 := by
        rw [stopCount]
        rw [if_neg (by simp), if_neg (by simp)]
      rw [this]
      simp
  · intro i hi
    apply hspec.1
    omega
  · intro hlt
    have h1 : (b.enforce files).length = stopCount b files true 0 0 := by
      rw [hlen]
      rcases Nat.le_total (stopCount b files true 0 0) files.length with h | h
      · omega
      · omega
    rw [h1]
    apply hspec.2
    omega
  · intro c hbc
    have hmono := stopCount_mono b c hbc files true 0 0
    have hpre : b.enforce files <+: c.enforce files := by
      rw [htake, enforce_eq_take c]
      exact take_isPrefix_take files hmono
    exact ⟨hpre, fun f hf => hpre.subset hf⟩

theorem chunkLine_content_empty (language : Language) (i : Nat) (line : String)
    (c : Chunk) (h : chunkLine language i line = some c) : c.content = "" := by
  simp only [chunkLine] at h
  split at h
  · cases h
  · split at h
    · cases h
    · rcases Option.map_eq_some'.mp h with ⟨kn, _, hkn⟩
      rw [← hkn]

/-- C9.  Every chunk either chunker produces has an empty `content`
string: the regex backend for every file content and language, and the
tree-sitter backend for every grammar entry and query-match list. -/
theorem c9_chunks_carry_no_content :
    (∀ (content : String) (language : Language) (c : Chunk),
      c ∈ RegexChunker.chunk content language → c.content = "") ∧
    (∀ (entry : GrammarEntry) (ms : List TSMatch) (c : Chunk),
      c ∈ TreeSitterChunker.chunkMatches entry ms → c.content = "") := by
  constructor
  · intro content language c hc
    simp only [RegexChunker.chunk, List.mem_filterMap] at hc
    obtain ⟨p, _, hp⟩ := hc
    exact chunkLine_content_empty language p.1 p.2 c hp
  · intro entry ms c hc
    simp only [TreeSitterChunker.chunkMatches, List.mem_filterMap] at hc
    obtain ⟨m, _, hm⟩ := hc
    split at hm
    · cases hm
    · cases hm
      rfl

/-- Witness for C9: a Rust function line through the regex chunker and a
one-capture match through the tree-sitter loop, both yielding chunks
with empty content. -/
theorem c9_chunks_carry_no_content_witness :
    ((RegexChunker.chunk "fn main() -> u8 \x7b" Language.rust).headD
        ⟨ChunkKind.other, "x", 0, 0, "x"⟩).content = "" ∧
    ((TreeSitterChunker.chunkMatches ⟨some 0, none, none, none, some 1⟩
        [⟨[⟨0, ⟨none, 0, 2⟩⟩, ⟨1, ⟨some "main", 0, 0⟩⟩]⟩]).headD
        ⟨ChunkKind.other, "x", 0, 0, "x"⟩).content = "" := by
  constructor
  · exact c9_chunks_carry_no_content.1 "fn main() -> u8 \x7b" Language.rust _ (by decide)
  · exact c9_chunks_carry_no_content.2 ⟨some 0, none, none, none, some 1⟩
      [⟨[⟨0, ⟨none, 0, 2⟩⟩, ⟨1, ⟨some "main", 0, 0⟩⟩]⟩] _ (by decide)

/-! ### Association-list and fold lemmas -/

theorem foldl_induction {α β : Type} (f : β → α → β) (P : β → Prop) :
    ∀ (l : List α) (b : β), P b → (∀ b a, a ∈ l → P b → P (f b a)) →
      P (l.foldl f b) := by
  intro l
  induction l with
  | nil => intro b hb _; exact hb
  | cons x xs ih =>
    intro b hb hstep
    simp only [List.foldl_cons]
    exact ih (f b x) (hstep b x (List.mem_cons_self x xs) hb)
      (fun b a ha hp => hstep b a (List.mem_cons_of_mem x ha) hp)

theorem assocFind?_some_mem {β : Type} {k : String} {v : β} :
    ∀ {m : List (String × β)}, assocFind? k m = some v → (k, v) ∈ m := by
  intro m
  induction m with
  | nil => intro h; simp [assocFind?] at h
  | cons p rest ih =>
    obtain ⟨a, b⟩ := p
    intro h
    simp only [assocFind?] at h
    by_cases hak : a = k
    · rw [if_pos hak] at h
      injection h with hb
      subst hak; subst hb
      exact List.mem_cons_self _ _
    · rw [if_neg hak] at h
      exact List.mem_cons_of_mem _ (ih h)

theorem assocFind?_isSome_iff {β : Type} (k : String) :
    ∀ m : List (String × β), (assocFind? k m).isSome = true ↔ k ∈ assocKeys m := by
  intro m
  induction m with
  | nil => simp [assocFind?, assocKeys]
  | cons p rest ih =>
    obtain ⟨a, b⟩ := p
    simp only [assocFind?, assocKeys, List.map_cons, List.mem_cons]
    by_cases hak : a = k
    · subst hak
      simp
    · rw [if_neg hak]
      simp only [assocKeys] at ih
      rw [ih]
      constructor
      · exact fun h => Or.inr h
      · rintro (h | h)
        · exact absurd h.symm hak
        · exact h

theorem assocKeys_insert {β : Type} (k : String) (v : β) :
    ∀ m : List (String × β), assocKeys (assocInsert k v m) =
      if k ∈ assocKeys m then assocKeys m else assocKeys m ++ [k] := by
  intro m
  induction m with
  | nil => simp [assocInsert, assocKeys]
  | cons p rest ih =>
    obtain ⟨a, b⟩ := p
    simp only [assocInsert, assocKeys, List.map_cons]
    by_cases hak : a = k
    · subst hak
      simp [assocKeys]
    · rw [if_neg hak]
      simp only [List.map_cons, List.mem_cons]
      simp only [assocKeys] at ih
      by_cases hk : k ∈ rest.map Prod.fst
      · rw [ih, if_pos hk, if_pos (Or.inr hk)]
      · rw [ih, if_neg hk, if_neg (by rintro (h | h); exact hak h.symm; exact hk h)]
        simp

theorem assocKeys_insert_nodup {β : Type} {k : String} {v : β}
    {m : List (String × β)} (h : (assocKeys m).Nodup) :
    (assocKeys (assocInsert k v m)).Nodup := by
  rw [assocKeys_insert]
  split
  · exact h
  · next hk =>
    simp [List.nodup_append, h, hk]

theorem mem_assocInsert {β : Type} {pe : String × β} {k : String} {v : β} :
    ∀ {m : List (String × β)}, pe ∈ assocInsert k v m → pe = (k, v) ∨ pe ∈ m := by
  intro m
  induction m with
  | nil => intro h; simpa [assocInsert] using h
  | cons q rest ih =>
    obtain ⟨a, b⟩ := q
    intro h
    simp only [assocInsert] at h
    by_cases hak : a = k
    · rw [if_pos hak] at h
      rcases List.mem_cons.mp h with h | h
      · exact Or.inl h
      · exact Or.inr (List.mem_cons_of_mem _ h)
    · rw [if_neg hak] at h
      rcases List.mem_cons.mp h with h | h
      · exact Or.inr (h ▸ List.mem_cons_self _ _)
      · rcases ih h with h | h
        · exact Or.inl h
        · exact Or.inr (List.mem_cons_of_mem _ h)

theorem assocInsert_eq_append {β : Type} {k : String} (v : β) :
    ∀ {m : List (String × β)}, k ∉ assocKeys m → assocInsert k v m = m ++ [(k, v)] := by
  intro m
  induction m with
  | nil => intro _; rfl
  | cons p rest ih =>
    obtain ⟨a, b⟩ := p
    intro h
    simp only [assocKeys, List.map_cons, List.mem_cons] at h
    push_neg at h
    have hak : ¬ a = k := fun hx => h.1 hx.symm
    simp only [assocInsert, if_neg hak, List.cons_append, List.cons.injEq, true_and]
    exact ih (by simpa [assocKeys] using h.2)

theorem assocKeys_append {β : Type} (l r : List (String × β)) :
    assocKeys (l ++ r) = assocKeys l ++ assocKeys r := by
  simp [assocKeys]

theorem foldInsert_eq {β : Type} :
    ∀ (l m : List (String × β)), (assocKeys (m ++ l)).Nodup →
      l.foldl (fun acc pe => assocInsert pe.1 pe.2 acc) m = m ++ l := by
  intro l
  induction l with
  | nil => intro m _; simp
  | cons pe rest ih =>
    intro m h
    simp only [List.foldl_cons]
    have hsplit : (assocKeys m ++ assocKeys (pe :: rest)).Nodup := by
      rw [← assocKeys_append]; exact h
    have hk : pe.1 ∉ assocKeys m := by
      rw [List.nodup_append] at hsplit
      intro hmem
      exact hsplit.2.2 hmem (by simp [assocKeys])
    rw [show assocInsert pe.1 pe.2 m = m ++ [pe] from by
      rw [assocInsert_eq_append pe.2 hk]]
    rw [ih (m ++ [pe]) (by
      rw [List.append_assoc]
      simpa [assocKeys] using h)]
    simp

theorem foldInsert_keys_nodup {β : Type} (l : List (String × β)) :
    (assocKeys (l.foldl (fun acc pe => assocInsert pe.1 pe.2 acc) [])).Nodup := by
  refine foldl_induction _ (fun acc => (assocKeys acc).Nodup) l [] (by simp [assocKeys]) ?_
  intro b a _ hb
  exact assocKeys_insert_nodup hb

theorem foldInsert_mem {β : Type} {x : String × β} :
    ∀ (l : List (String × β)),
      x ∈ l.foldl (fun acc pe => assocInsert pe.1 pe.2 acc) [] → x ∈ l := by
  intro l hx
  have := foldl_induction (fun acc (pe : String × β) => assocInsert pe.1 pe.2 acc)
    (fun acc => ∀ y ∈ acc, y ∈ l) l [] (by simp) ?_ x hx
  · exact this
  · intro b a ha hb y hy
    rcases mem_assocInsert hy with h | h
    · rw [h]; exact ha
    · exact hb y h

theorem assocFind?_map_transform {α β : Type} (g : String → α → β) (p : String) :
    ∀ l : List (String × α),
      assocFind? p (l.map (fun pe => (pe.1, g pe.1 pe.2))) =
        (assocFind? p l).map (g p) := by
  intro l
  induction l with
  | nil => simp [assocFind?]
  | cons q rest ih =>
    obtain ⟨a, b⟩ := q
    simp only [List.map_cons, assocFind?]
    by_cases hak : a = p
    · subst hak
      simp
    · rw [if_neg hak, if_neg hak, ih]

/-! ### Doc-frequency counting lemmas -/

theorem assocBump_count (k t : String) :
    ∀ df : List (String × Nat),
      (assocFind? t (assocBump k df)).getD 0 =
        (assocFind? t df).getD 0 + (if t = k then 1 else 0) := by
  intro df
  induction df with
  | nil =>
    by_cases htk : t = k
    · subst htk; simp [assocBump, assocFind?]
    · have hkt : ¬ k = t := fun h => htk h.symm
      simp [assocBump, assocFind?, hkt, htk]
  | cons p rest ih =>
    obtain ⟨a, n⟩ := p
    by_cases hak : a = k <;> by_cases hat : a = t
    · have htk : t = k := hat.symm.trans hak
      simp [assocBump, assocFind?, hak, hat, htk]
    · have htk : ¬ t = k := fun h => hat (hak.trans h.symm)
      have hkt : ¬ k = t := fun h => htk h.symm
      simp [assocBump, assocFind?, hak, hat, htk, hkt]
    · have htk : ¬ t = k := fun h => hak (hat.trans h)
      simp [assocBump, assocFind?, hak, hat, htk]
    · simp [assocBump, assocFind?, hak, hat, ih]

theorem bumpFold_count (t : String) :
    ∀ (ks : List String) (df : List (String × Nat)),
      (assocFind? t (ks.foldl (fun d k => assocBump k d) df)).getD 0 =
        (assocFind? t df).getD 0 + ks.count t := by
  intro ks
  induction ks with
  | nil => intro df; simp
  | cons k rest ih =>
    intro df
    simp only [List.foldl_cons]
    rw [ih (assocBump k df), assocBump_count]
    have hc : (k :: rest).count t = rest.count t + (if t = k then 1 else 0) := by
      by_cases h : t = k <;> simp [List.count_cons, h]
    rw [hc]
    omega

theorem corpusFold_count (t : String) :
    ∀ (entries : List (String × FileEntry)) (df : List (String × Nat)),
      (∀ pe ∈ entries, (assocKeys pe.2.term_frequencies).Nodup) →
      (assocFind? t (entries.foldl
        (fun df pe => (assocKeys pe.2.term_frequencies).foldl
          (fun df2 term => assocBump term df2) df) df)).getD 0 =
        (assocFind? t df).getD 0 +
          entries.countP (fun pe => (assocFind? t pe.2.term_frequencies).isSome) := by
  intro entries
  induction entries with
  | nil => intro df _; simp
  | cons pe rest ih =>
    intro df hnd
    simp only [List.foldl_cons]
    rw [ih _ (fun q hq => hnd q (List.mem_cons_of_mem pe hq)), bumpFold_count]
    have hcount : (assocKeys pe.2.term_frequencies).count t =
        (if (assocFind? t pe.2.term_frequencies).isSome = true then 1 else 0) := by
      by_cases hmem : t ∈ assocKeys pe.2.term_frequencies
      · rw [if_pos ((assocFind?_isSome_iff t _).mpr hmem)]
        exact List.count_eq_one_of_mem (hnd pe (List.mem_cons_self pe rest)) hmem
      · rw [if_neg (fun hs => hmem ((assocFind?_isSome_iff t _).mp hs))]
        exact List.count_eq_zero_of_not_mem hmem
    rw [List.countP_cons, hcount]
    split <;> omega

theorem corpusDocFrequencies_count (t : String) (entries : List (String × FileEntry))
    (hnd : ∀ pe ∈ entries, (assocKeys pe.2.term_frequencies).Nodup) :
    (assocFind? t (corpusDocFrequencies entries)).getD 0 =
      entries.countP (fun pe => (assocFind? t pe.2.term_frequencies).isSome) := by
  have := corpusFold_count t entries [] hnd
  simpa [corpusDocFrequencies, assocFind?] using this

theorem assocKeys_bumpTF (fld : TFField) (k : String) :
    ∀ m : List (String × TermFreqs), assocKeys (bumpTF fld k m) =
      if k ∈ assocKeys m then assocKeys m else assocKeys m ++ [k] := by
  intro m
  induction m with
  | nil => cases fld <;> simp [bumpTF, assocKeys]
  | cons p rest ih =>
    obtain ⟨a, tf⟩ := p
    simp only [bumpTF, assocKeys, List.map_cons]
    by_cases hak : a = k
    · subst hak
      simp [assocKeys]
    · rw [if_neg hak]
      simp only [List.map_cons, List.mem_cons]
      simp only [assocKeys] at ih
      by_cases hk : k ∈ rest.map Prod.fst
      · rw [ih, if_pos hk, if_pos (Or.inr hk)]
      · rw [ih, if_neg hk, if_neg (by rintro (h | h); exact hak h.symm; exact hk h)]
        simp

theorem bumpTF_keys_nodup {fld : TFField} {k : String}
    {m : List (String × TermFreqs)} (h : (assocKeys m).Nodup) :
    (assocKeys (bumpTF fld k m)).Nodup := by
  rw [assocKeys_bumpTF]
  split
  · exact h
  · next hk => simp [List.nodup_append, h, hk]

theorem bumpTF_fold_nodup (fld : TFField) (tokens : List String)
    (m : List (String × TermFreqs)) (hm : (assocKeys m).Nodup) :
    (assocKeys (tokens.foldl (fun m token => bumpTF fld token m) m)).Nodup :=
  foldl_induction _ (fun m => (assocKeys m).Nodup) tokens m hm
    (fun _ _ _ hb => bumpTF_keys_nodup hb)

theorem build_file_entry_tf_nodup (info : FileInfo) (content : String) :
    (assocKeys (build_file_entry info content).term_frequencies).Nodup := by
  show (assocKeys ((default_chunker_chunk content info.language).foldl _
    ((tokenize_content content).foldl _
      ((tokenize_path info.path).foldl _ [])))).Nodup
  refine foldl_induction _ (fun m => (assocKeys m).Nodup) _ _ ?_ ?_
  · refine bumpTF_fold_nodup TFField.body _ _ ?_
    refine bumpTF_fold_nodup TFField.filename _ _ ?_
    simp [assocKeys]
  · intro b a _ hb
    dsimp only
    split
    · exact bumpTF_fold_nodup TFField.symbols _ _ hb
    · exact hb

theorem buildEntries_keys_sublist (root : String) (fs : String → Option String) :
    ∀ files : List FileInfo,
      (assocKeys (buildEntries root fs files)).Sublist (files.map FileInfo.path) := by
  intro files
  induction files with
  | nil => simp [buildEntries, assocKeys]
  | cons info rest ih =>
    simp only [buildEntries, List.filterMap_cons, List.map_cons]
    cases h : fs (pathJoin root info.path) with
    | none =>
      simp only [Option.map_none']
      exact List.Sublist.cons info.path (by simpa [buildEntries] using ih)
    | some content =>
      simp only [Option.map_some', assocKeys, List.map_cons]
      exact List.Sublist.cons₂ info.path (by simpa [buildEntries, assocKeys] using ih)

theorem buildEntries_mem (root : String) (fs : String → Option String) :
    ∀ (files : List FileInfo) (pe : String × FileEntry),
      pe ∈ buildEntries root fs files →
      ∃ info ∈ files, ∃ content, fs (pathJoin root info.path) = some content ∧
        pe = (info.path, build_file_entry info content) := by
  intro files
  induction files with
  | nil => intro pe h; simp [buildEntries] at h
  | cons info rest ih =>
    intro pe h
    simp only [buildEntries, List.filterMap_cons] at h
    cases hf : fs (pathJoin root info.path) with
    | none =>
      rw [hf] at h
      simp only [Option.map_none'] at h
      obtain ⟨i, hi, c, hc, hpe⟩ := ih pe (by simpa [buildEntries] using h)
      exact ⟨i, List.mem_cons_of_mem info hi, c, hc, hpe⟩
    | some content =>
      rw [hf] at h
      simp only [Option.map_some'] at h
      rcases List.mem_cons.mp h with h | h
      · exact ⟨info, List.mem_cons_self info rest, content, hf, h⟩
      · obtain ⟨i, hi, c, hc, hpe⟩ := ih pe (by simpa [buildEntries] using h)
        exact ⟨i, List.mem_cons_of_mem info hi, c, hc, hpe⟩

theorem buildEntries_lookup (root : String) (fs : String → Option String) :
    ∀ (files : List FileInfo) (info : FileInfo) (content : String),
      (files.map FileInfo.path).Nodup → info ∈ files →
      fs (pathJoin root info.path) = some content →
      assocFind? info.path (buildEntries root fs files) =
        some (build_file_entry info content) := by
  intro files
  induction files with
  | nil => intro info content _ h; simp at h
  | cons hd rest ih =>
    intro info content hnd hmem hfs
    simp only [List.map_cons, List.nodup_cons] at hnd
    rcases List.mem_cons.mp hmem with h | h
    · subst h
      simp only [buildEntries, List.filterMap_cons, hfs, Option.map_some']
      simp [assocFind?]
    · have hne : hd.path ≠ info.path := by
        intro hx
        exact hnd.1 (hx ▸ List.mem_map_of_mem FileInfo.path h)
      simp only [buildEntries, List.filterMap_cons]
      cases hf : fs (pathJoin root hd.path) with
      | none =>
        simpa [buildEntries] using ih info content hnd.2 h hfs
      | some c =>
        simp only [Option.map_some']
        rw [assocFind?, if_neg hne]
        simpa [buildEntries] using ih info content hnd.2 h hfs

theorem build_files_eq (root : String) (fs : String → Option String)
    (files : List FileInfo) (h : (files.map FileInfo.path).Nodup) :
    (IndexBuilder.build root fs files).files = buildEntries root fs files := by
  show (buildEntries root fs files).foldl (fun m pe => assocInsert pe.1 pe.2 m) [] = _
  have hnd : (assocKeys (([] : List (String × FileEntry)) ++
      buildEntries root fs files)).Nodup := by
    simpa using (buildEntries_keys_sublist root fs files).nodup h
  simpa using foldInsert_eq (buildEntries root fs files) [] hnd

theorem build_files_mem (root : String) (fs : String → Option String)
    (files : List FileInfo) (pe : String × FileEntry)
    (h : pe ∈ (IndexBuilder.build root fs files).files) :
    pe ∈ buildEntries root fs files :=
  foldInsert_mem _ h

/-! ### Merge lemmas -/

theorem merge_files_eq (existing fresh : DeepIndex)
    (h : (assocKeys fresh.files).Nodup) :
    (merge_incremental existing fresh).files =
      fresh.files.map (fun pe => (pe.1, mergeChoose existing pe.1 pe.2)) := by
  show fresh.files.foldl _ [] = _
  have hstep : (fun (m : List (String × FileEntry)) (pe : String × FileEntry) =>
      match assocFind? pe.1 existing.files with
      | some old_entry =>
        if old_entry.sha256 = pe.2.sha256 then assocInsert pe.1 old_entry m
        else assocInsert pe.1 pe.2 m
      | none => assocInsert pe.1 pe.2 m) =
      (fun m pe => assocInsert pe.1 (mergeChoose existing pe.1 pe.2) m) := by
    funext m pe
    unfold mergeChoose
    cases assocFind? pe.1 existing.files with
    | none => rfl
    | some old =>
      by_cases hsha : old.sha256 = pe.2.sha256 <;> simp [hsha]
  rw [hstep]
  have hmap : fresh.files.foldl
      (fun m pe => assocInsert pe.1 (mergeChoose existing pe.1 pe.2) m) [] =
      (fresh.files.map (fun pe => (pe.1, mergeChoose existing pe.1 pe.2))).foldl
        (fun m pe => assocInsert pe.1 pe.2 m) [] := by
    rw [List.foldl_map]
  rw [hmap]
  refine foldInsert_eq _ [] ?_
  simpa [assocKeys, Function.comp] using h

theorem merge_lookup (existing fresh : DeepIndex)
    (h : (assocKeys fresh.files).Nodup) (p : String) :
    assocFind? p (merge_incremental existing fresh).files =
      (assocFind? p fresh.files).map (mergeChoose existing p) := by
  rw [merge_files_eq existing fresh h]
  exact assocFind?_map_transform (mergeChoose existing) p fresh.files

theorem merge_files_keys_nodup (existing fresh : DeepIndex) :
    (assocKeys (merge_incremental existing fresh).files).Nodup := by
  show (assocKeys (fresh.files.foldl _ [])).Nodup
  refine foldl_induction _ (fun m => (assocKeys m).Nodup) _ [] (by simp [assocKeys]) ?_
  intro b a _ hb
  dsimp only
  split
  · split
    · exact assocKeys_insert_nodup hb
    · exact assocKeys_insert_nodup hb
  · exact assocKeys_insert_nodup hb

theorem merge_files_mem (existing fresh : DeepIndex) (pe : String × FileEntry)
    (h : pe ∈ (merge_incremental existing fresh).files) :
    pe ∈ existing.files ∨ pe ∈ fresh.files := by
  have := foldl_induction
    (fun (m : List (String × FileEntry)) (q : String × FileEntry) =>
      match assocFind? q.1 existing.files with
      | some old_entry =>
        if old_entry.sha256 = q.2.sha256 then assocInsert q.1 old_entry m
        else assocInsert q.1 q.2 m
      | none => assocInsert q.1 q.2 m)
    (fun m => ∀ x ∈ m, x ∈ existing.files ∨ x ∈ fresh.files)
    fresh.files [] (by simp) ?_ pe h
  · exact this
  · intro b a ha hb x hx
    revert hx
    dsimp only
    cases hfind : assocFind? a.1 existing.files with
    | none =>
      intro hx
      rcases mem_assocInsert hx with h | h
      · right; rw [h]; simpa using ha
      · exact hb x h
    | some old =>
      intro hx
      have hx2 : x ∈ (if old.sha256 = a.2.sha256 then assocInsert a.1 old b
          else assocInsert a.1 a.2 b) := hx
      by_cases hsha : old.sha256 = a.2.sha256
      · rw [if_pos hsha] at hx2
        rcases mem_assocInsert hx2 with h | h
        · left; rw [h]; exact assocFind?_some_mem hfind
        · exact hb x h
      · rw [if_neg hsha] at hx2
        rcases mem_assocInsert hx2 with h | h
        · right; rw [h]; simpa using ha
        · exact hb x h

/-- `IndexBuilder.build` exposes its average-length formula
definitionally. -/
theorem build_avg_doc_length (root : String) (fs : String → Option String)
    (files : List FileInfo) :
    (IndexBuilder.build root fs files).avg_doc_length =
      (if (buildEntries root fs files).length > 0
        then (Nat.cast (((buildEntries root fs files).map
            (fun pe => pe.2.doc_length)).sum) : ℚ) /
          (Nat.cast ((buildEntries root fs files).length) : ℚ)
        else 1) := rfl

/-! ### Index, resolver and graph lemmas -/

theorem indexValues_cons (a : String) (l : List String)
    (rest : List (String × List String)) :
    indexValues ((a, l) :: rest) = l ++ indexValues rest := by
  simp [indexValues]

theorem indexGet_subset (k : String) (m : List (String × List String)) :
    ∀ x ∈ indexGet k m, x ∈ indexValues m := by
  intro x hx
  unfold indexGet at hx
  cases h : assocFind? k m with
  | none => rw [h] at hx; simp at hx
  | some l =>
    rw [h] at hx
    simp only [Option.getD_some] at hx
    have hm := assocFind?_some_mem h
    simp only [indexValues, List.mem_flatten]
    exact ⟨l, List.mem_map_of_mem Prod.snd hm, hx⟩

theorem indexValues_push (k v : String) :
    ∀ (m : List (String × List String)) (x : String),
      x ∈ indexValues (indexPush k v m) → x = v ∨ x ∈ indexValues m := by
  intro m
  induction m with
  | nil =>
    intro x hx
    simp [indexPush, indexValues] at hx
    exact Or.inl hx
  | cons p rest ih =>
    obtain ⟨a, vs⟩ := p
    intro x hx
    simp only [indexPush] at hx
    by_cases hak : a = k
    · rw [if_pos hak, indexValues_cons] at hx
      rw [indexValues_cons]
      rcases List.mem_append.mp hx with h | h
      · rcases List.mem_append.mp h with h2 | h2
        · exact Or.inr (List.mem_append.mpr (Or.inl h2))
        · simp at h2; exact Or.inl h2
      · exact Or.inr (List.mem_append.mpr (Or.inr h))
    · rw [if_neg hak, indexValues_cons] at hx
      rw [indexValues_cons]
      rcases List.mem_append.mp hx with h | h
      · exact Or.inr (List.mem_append.mpr (Or.inl h))
      · rcases ih x h with h2 | h2
        · exact Or.inl h2
        · exact Or.inr (List.mem_append.mpr (Or.inr h2))

theorem build_file_index_values (paths : List String) :
    (∀ x ∈ indexValues (build_file_index paths).stem, x ∈ paths) ∧
    (∀ x ∈ indexValues (build_file_index paths).dir, x ∈ paths) := by
  unfold build_file_index
  refine foldl_induction _
    (fun idx => (∀ x ∈ indexValues idx.stem, x ∈ paths) ∧
      (∀ x ∈ indexValues idx.dir, x ∈ paths)) paths (RepoIndex.mk [] [])
    ⟨by simp [indexValues], by simp [indexValues]⟩ ?_
  intro idx path hpath hidx
  constructor
  · intro x hx
    simp only [] at hx
    cases hstem : pathFileStem path with
    | none => rw [hstem] at hx; exact hidx.1 x hx
    | some stem =>
      rw [hstem] at hx
      simp only [] at hx
      by_cases hmod : (stem = "mod" || stem = "index" || stem = "__init__") = true
      · rw [if_pos hmod] at hx
        cases hpar : (pathParent path).bind pathFileName with
        | none =>
          rw [hpar] at hx
          rcases indexValues_push _ _ _ _ hx with h | h
          · exact h ▸ hpath
          · exact hidx.1 x h
        | some parentName =>
          rw [hpar] at hx
          rcases indexValues_push _ _ _ _ hx with h | h
          · exact h ▸ hpath
          · rcases indexValues_push _ _ _ _ h with h2 | h2
            · exact h2 ▸ hpath
            · exact hidx.1 x h2
      · rw [if_neg hmod] at hx
        rcases indexValues_push _ _ _ _ hx with h | h
        · exact h ▸ hpath
        · exact hidx.1 x h
  · intro x hx
    simp only [] at hx
    cases hpar : (pathParent path).bind pathFileName with
    | none => rw [hpar] at hx; exact hidx.2 x hx
    | some parentName =>
      rw [hpar] at hx
      rcases indexValues_push _ _ _ _ hx with h | h
      · exact h ▸ hpath
      · exact hidx.2 x h

theorem contains_mem {l : List String} {a : String}
    (h : l.contains a = true) : a ∈ l := by
  simpa using h

theorem foldl_tries_mem (fi : List (String × List String)) :
    ∀ (tries : List String) (acc : List String),
      (∀ x ∈ acc, x ∈ indexValues fi) →
      ∀ x ∈ tries.foldl
        (fun acc segment =>
          if acc.isEmpty then indexGet (strToLower segment) fi else acc) acc,
        x ∈ indexValues fi := by
  intro tries
  induction tries with
  | nil => intro acc hacc x hx; exact hacc x hx
  | cons t ts ih =>
    intro acc hacc x hx
    simp only [List.foldl_cons] at hx
    refine ih _ ?_ x hx
    intro y hy
    by_cases hae : acc.isEmpty = true
    · rw [if_pos hae] at hy; exact indexGet_subset _ fi y hy
    · rw [if_neg hae] at hy; exact hacc y hy

theorem resolve_js_mem (ip f : String) (fi : List (String × List String)) :
    ∀ c ∈ resolve_js ip f fi, c ∈ indexValues fi := by
  intro c hc
  unfold resolve_js at hc
  split at hc
  · simp only [] at hc
    split at hc
    · simp at hc
    · split at hc
      · exact indexGet_subset _ fi c hc
      · exact indexGet_subset _ fi c (List.mem_of_mem_filter hc)
  · exact indexGet_subset _ fi c hc

theorem resolve_python_mem (ip f : String) (fi : List (String × List String)) :
    ∀ c ∈ resolve_python ip f fi, c ∈ indexValues fi := by
  intro c hc
  unfold resolve_python at hc
  split at hc
  · simp only [] at hc
    split at hc
    · exact indexGet_subset _ fi c hc
    · exact indexGet_subset _ fi c hc
  · exact foldl_tries_mem fi _ [] (by simp) c hc

theorem resolve_go_mem (ip : String) (idx : RepoIndex) :
    ∀ c ∈ resolve_go ip idx,
      c ∈ indexValues idx.dir ∨ c ∈ indexValues idx.stem := by
  intro c hc
  unfold resolve_go at hc
  simp only [] at hc
  split at hc
  · simp at hc
  · split at hc
    · split at hc
      · split at hc
        · exact Or.inl (indexGet_subset _ idx.dir c (List.mem_of_mem_filter hc))
        · exact Or.inl (indexGet_subset _ idx.dir c hc)
      · exact Or.inl (indexGet_subset _ idx.dir c hc)
    · exact Or.inr (indexGet_subset _ idx.stem c hc)

theorem resolve_ruby_mem (ip f : String) (fi : List (String × List String)) :
    ∀ c ∈ resolve_ruby ip f fi, c ∈ indexValues fi := by
  intro c hc
  unfold resolve_ruby at hc
  simp only [] at hc
  split at hc
  · split at hc
    · exact indexGet_subset _ fi c (List.mem_of_mem_filter hc)
    · exact indexGet_subset _ fi c hc
  · exact indexGet_subset _ fi c hc

theorem resolve_c_include_mem (ip f : String) (fi : List (String × List String)) :
    ∀ c ∈ resolve_c_include ip f fi, c ∈ indexValues fi := by
  intro c hc
  unfold resolve_c_include at hc
  simp only [] at hc
  split at hc
  case isTrue h =>
    simp only [List.mem_singleton] at hc
    exact hc ▸ contains_mem h
  case isFalse h => exact indexGet_subset _ fi c hc

theorem resolve_php_mem (ip f : String) (fi : List (String × List String)) :
    ∀ c ∈ resolve_php ip f fi, c ∈ indexValues fi := by
  intro c hc
  unfold resolve_php at hc
  simp only [] at hc
  split at hc
  · exact indexGet_subset _ fi c hc
  · split at hc
    case isTrue h =>
      simp only [List.mem_singleton] at hc
      exact hc ▸ contains_mem h
    case isFalse h => exact indexGet_subset _ fi c hc

theorem resolve_r_mem (ip f : String) (fi : List (String × List String)) :
    ∀ c ∈ resolve_r ip f fi, c ∈ indexValues fi := by
  intro c hc
  unfold resolve_r at hc
  simp only [] at hc
  split at hc
  · split at hc
    case isTrue h =>
      simp only [List.mem_singleton] at hc
      exact hc ▸ contains_mem h
    case isFalse h => exact indexGet_subset _ fi c hc
  · exact indexGet_subset _ fi c hc

theorem resolve_shell_mem (ip f : String) (fi : List (String × List String)) :
    ∀ c ∈ resolve_shell ip f fi, c ∈ indexValues fi := by
  intro c hc
  unfold resolve_shell at hc
  simp only [] at hc
  split at hc
  case isTrue h =>
    simp only [List.mem_singleton] at hc
    exact hc ▸ contains_mem h
  case isFalse h => exact indexGet_subset _ fi c hc

theorem resolve_elixir_mem (ip : String) (fi : List (String × List String)) :
    ∀ c ∈ resolve_elixir ip fi, c ∈ indexValues fi := by
  intro c hc
  unfold resolve_elixir at hc
  exact foldl_tries_mem fi _ [] (by simp) c hc

theorem resolve_import_mem (raw f : String) (lang : Language) (idx : RepoIndex) :
    ∀ c ∈ resolve_import raw f lang idx,
      (c ∈ indexValues idx.stem ∨ c ∈ indexValues idx.dir) ∧ c ≠ f := by
  intro c hc
  unfold resolve_import at hc
  rw [List.mem_filter] at hc
  obtain ⟨hmem, hne⟩ := hc
  refine ⟨?_, by simpa using hne⟩
  cases lang with
  | rust => exact Or.inl (indexGet_subset _ idx.stem c hmem)
  | javascript => exact Or.inl (resolve_js_mem raw f idx.stem c hmem)
  | typescript => exact Or.inl (resolve_js_mem raw f idx.stem c hmem)
  | python => exact Or.inl (resolve_python_mem raw f idx.stem c hmem)
  | go =>
    rcases resolve_go_mem raw idx c hmem with h | h
    · exact Or.inr h
    · exact Or.inl h
  | java => exact Or.inl (indexGet_subset _ idx.stem c hmem)
  | kotlin => exact Or.inl (indexGet_subset _ idx.stem c hmem)
  | c => exact Or.inl (resolve_c_include_mem raw f idx.stem c hmem)
  | cpp => exact Or.inl (resolve_c_include_mem raw f idx.stem c hmem)
  | ruby => exact Or.inl (resolve_ruby_mem raw f idx.stem c hmem)
  | swift => exact Or.inl (indexGet_subset _ idx.stem c hmem)
  | elixir => exact Or.inl (resolve_elixir_mem raw idx.stem c hmem)
  | php => exact Or.inl (resolve_php_mem raw f idx.stem c hmem)
  | scala => exact Or.inl (indexGet_subset _ idx.stem c hmem)
  | r => exact Or.inl (resolve_r_mem raw f idx.stem c hmem)
  | shell => exact Or.inl (resolve_shell_mem raw f idx.stem c hmem)
  | markdown => simp at hmem
  | yaml => simp at hmem
  | toml => simp at hmem
  | json => simp at hmem
  | html => simp at hmem
  | css => simp at hmem
  | haskell => simp at hmem
  | lua => simp at hmem
  | other => simp at hmem

theorem pushAdj_mem (k v : String) (m : List (String × List String)) :
    ∀ pe ∈ pushAdj k v m, ∃ qe ∈ m, pe.1 = qe.1 ∧
      (pe.2 = qe.2 ∨ (pe.2 = qe.2 ++ [v] ∧ qe.1 = k)) := by
  intro pe hpe
  unfold pushAdj at hpe
  rw [List.mem_map] at hpe
  obtain ⟨qe, hqe, heq⟩ := hpe
  by_cases h : qe.1 = k
  · rw [if_pos h] at heq
    exact ⟨qe, hqe, by rw [← heq], Or.inr ⟨by rw [← heq], h⟩⟩
  · rw [if_neg h] at heq
    exact ⟨qe, hqe, by rw [← heq], Or.inl (by rw [← heq])⟩

theorem add_node_ok (g : ImportGraph) (p : String)
    (hg1 : ∀ q ∈ g.nodes, is_vendored q = false)
    (hg2 : ∀ pe ∈ g.edges, is_vendored pe.1 = false ∧
      ∀ d ∈ pe.2, d ≠ pe.1 ∧ is_vendored d = false)
    (hp : is_vendored p = false) :
    (∀ q ∈ (g.add_node p).nodes, is_vendored q = false) ∧
    (∀ pe ∈ (g.add_node p).edges, is_vendored pe.1 = false ∧
      ∀ d ∈ pe.2, d ≠ pe.1 ∧ is_vendored d = false) := by
  unfold ImportGraph.add_node
  split
  · exact ⟨hg1, hg2⟩
  · constructor
    · intro q hq
      have hq2 : q ∈ g.nodes ++ [p] := hq
      rcases List.mem_append.mp hq2 with h | h
      · exact hg1 q h
      · simp only [List.mem_singleton] at h
        exact h ▸ hp
    · intro pe hpe
      have hpe2 : pe ∈ g.edges ++ [(p, [])] := hpe
      rcases List.mem_append.mp hpe2 with h | h
      · exact hg2 pe h
      · simp only [List.mem_singleton] at h
        subst h
        exact ⟨hp, by simp⟩

theorem add_edge_ok (g : ImportGraph) (src dst : String)
    (hg1 : ∀ q ∈ g.nodes, is_vendored q = false)
    (hg2 : ∀ pe ∈ g.edges, is_vendored pe.1 = false ∧
      ∀ d ∈ pe.2, d ≠ pe.1 ∧ is_vendored d = false)
    (hsrc : is_vendored src = false) (hdst : is_vendored dst = false)
    (hne : dst ≠ src) :
    (∀ q ∈ (g.add_edge src dst).nodes, is_vendored q = false) ∧
    (∀ pe ∈ (g.add_edge src dst).edges, is_vendored pe.1 = false ∧
      ∀ d ∈ pe.2, d ≠ pe.1 ∧ is_vendored d = false) := by
  obtain ⟨h11, h12⟩ := add_node_ok g src hg1 hg2 hsrc
  obtain ⟨h21, h22⟩ := add_node_ok (g.add_node src) dst h11 h12 hdst
  constructor
  · intro q hq
    exact h21 q hq
  · intro pe hpe
    have hpe2 : pe ∈ pushAdj src dst ((g.add_node src).add_node dst).edges := hpe
    obtain ⟨qe, hqe, hfst, hsnd⟩ := pushAdj_mem src dst _ pe hpe2
    obtain ⟨hq1, hq2⟩ := h22 qe hqe
    refine ⟨hfst ▸ hq1, ?_⟩
    intro d hd
    rcases hsnd with h | ⟨h, hk⟩
    · rw [h] at hd
      obtain ⟨hdne, hdv⟩ := hq2 d hd
      exact ⟨hfst ▸ hdne, hdv⟩
    · rw [h] at hd
      rcases List.mem_append.mp hd with h2 | h2
      · obtain ⟨hdne, hdv⟩ := hq2 d h2
        exact ⟨hfst ▸ hdne, hdv⟩
      · simp only [List.mem_singleton] at h2
        subst h2
        refine ⟨?_, hdst⟩
        rw [hfst, hk]
        exact hne

/-- Counterexample for C4 as stated: with a duplicated input path,
`IndexBuilder::build` computes `total_docs`, `avg_doc_length` and
`doc_frequencies` over the raw entry vector but the file map dedups, so
both corpus-stat laws fail (avg·total = 4 ≠ 2 = Σ doc_length, and
`doc_frequencies["fn"] = 2` though only one path contains `fn`). -/
theorem c4_corpus_stats_counterexample :
    c4idx.avg_doc_length * (c4idx.total_docs : ℚ) ≠
      (((c4idx.files.map (fun pe => pe.2.doc_length)).sum : ℕ) : ℚ) ∧
    assocFind? "fn" c4idx.doc_frequencies = some 2 ∧
    c4idx.files.countP
      (fun pe => (assocFind? "fn" pe.2.term_frequencies).isSome) = 1 := by
  refine ⟨?_, by decide, by decide⟩
  have hlen : (buildEntries "root" c4fs [c4info, c4info]).length = 2 := by decide
  have hsum4 : ((buildEntries "root" c4fs [c4info, c4info]).map
      (fun pe => pe.2.doc_length)).sum = 4 := by decide
  have havg : c4idx.avg_doc_length = (2 : ℚ) := by
    rw [show c4idx.avg_doc_length =
          (IndexBuilder.build "root" c4fs [c4info, c4info]).avg_doc_length from
        rfl,
      build_avg_doc_length "root" c4fs [c4info, c4info], hlen, hsum4]
    norm_num
  have htd : c4idx.total_docs = 2 := by decide
  have hsum : ((c4idx.files.map (fun pe => pe.2.doc_length)).sum : ℕ) = 2 := by
    decide
  rw [havg, htd, hsum]
  norm_num

/-- C4, amended: with no duplicate input path, every index built by
`IndexBuilder::build` satisfies the doc-frequency law and the
avg-length law; indexes produced by `merge_incremental` satisfy them
whenever the input maps are well-formed (no duplicate term key inside an
entry, as Rust `HashMap`s guarantee). -/
theorem c4_corpus_stats_laws :
    (∀ (root : String) (fs : String → Option String) (files : List FileInfo),
      (files.map FileInfo.path).Nodup →
      (∀ t c, assocFind? t (IndexBuilder.build root fs files).doc_frequencies = some c →
        c = (IndexBuilder.build root fs files).files.countP
          (fun pe => (assocFind? t pe.2.term_frequencies).isSome)) ∧
      (0 < (IndexBuilder.build root fs files).total_docs →
        (IndexBuilder.build root fs files).avg_doc_length *
          ((IndexBuilder.build root fs files).total_docs : ℚ) =
          (((IndexBuilder.build root fs files).files.map
            (fun pe => pe.2.doc_length)).sum : ℚ)) ∧
      ((IndexBuilder.build root fs files).total_docs = 0 →
        (IndexBuilder.build root fs files).avg_doc_length = 1)) ∧
    (∀ existing fresh : DeepIndex,
      (∀ pe ∈ existing.files, (assocKeys pe.2.term_frequencies).Nodup) →
      (∀ pe ∈ fresh.files, (assocKeys pe.2.term_frequencies).Nodup) →
      (∀ t c, assocFind? t (merge_incremental existing fresh).doc_frequencies = some c →
        c = (merge_incremental existing fresh).files.countP
          (fun pe => (assocFind? t pe.2.term_frequencies).isSome)) ∧
      (0 < (merge_incremental existing fresh).total_docs →
        (merge_incremental existing fresh).avg_doc_length *
          ((merge_incremental existing fresh).total_docs : ℚ) =
          (((merge_incremental existing fresh).files.map
            (fun pe => pe.2.doc_length)).sum : ℚ)) ∧
      ((merge_incremental existing fresh).total_docs = 0 →
        (merge_incremental existing fresh).avg_doc_length = 1)) := by
  constructor
  · intro root fs files hnd
    have hdf : (IndexBuilder.build root fs files).doc_frequencies =
        corpusDocFrequencies (buildEntries root fs files) := rfl
    have htd : (IndexBuilder.build root fs files).total_docs =
        (buildEntries root fs files).length := rfl
    have havg := build_avg_doc_length root fs files
    have hfiles := build_files_eq root fs files hnd
    have hent : ∀ pe ∈ buildEntries root fs files,
        (assocKeys pe.2.term_frequencies).Nodup := by
      intro pe hpe
      obtain ⟨info, _, content, _, hpe⟩ := buildEntries_mem root fs files pe hpe
      rw [hpe]
      exact build_file_entry_tf_nodup info content
    refine ⟨?_, ?_, ?_⟩
    · intro t c hc
      have := corpusDocFrequencies_count t (buildEntries root fs files) hent
      rw [hdf] at hc
      rw [hc] at this
      simp only [Option.getD_some] at this
      rw [hfiles]
      exact this
    · intro hpos
      rw [htd] at hpos
      rw [havg, htd, hfiles, if_pos hpos]
      have hne : ((buildEntries root fs files).length : ℚ) ≠ 0 := by
        exact_mod_cast Nat.pos_iff_ne_zero.mp hpos
      rw [div_mul_cancel₀ _ hne, Nat.cast_list_sum, List.map_map]
      rfl
    · intro hzero
      rw [htd] at hzero
      rw [havg, hzero]
      simp
  · intro existing fresh hex hfr
    have hdf : (merge_incremental existing fresh).doc_frequencies =
        corpusDocFrequencies (merge_incremental existing fresh).files := rfl
    have htd : (merge_incremental existing fresh).total_docs =
        (merge_incremental existing fresh).files.length := rfl
    have havg : (merge_incremental existing fresh).avg_doc_length =
        (if (merge_incremental existing fresh).files.length > 0 then
          (Nat.cast (((merge_incremental existing fresh).files.map
            (fun pe => pe.2.doc_length)).sum) : ℚ) /
            (Nat.cast ((merge_incremental existing fresh).files.length) : ℚ)
        else 1) := rfl
    have hent : ∀ pe ∈ (merge_incremental existing fresh).files,
        (assocKeys pe.2.term_frequencies).Nodup := by
      intro pe hpe
      rcases merge_files_mem existing fresh pe hpe with h | h
      · exact hex pe h
      · exact hfr pe h
    refine ⟨?_, ?_, ?_⟩
    · intro t c hc
      have := corpusDocFrequencies_count t (merge_incremental existing fresh).files hent
      rw [hdf] at hc
      rw [hc] at this
      simpa using this
    · intro hpos
      rw [htd] at hpos
      rw [havg, if_pos hpos]
      have hne : (((merge_incremental existing fresh).files.length : ℚ)) ≠ 0 := by
        exact_mod_cast Nat.pos_iff_ne_zero.mp hpos
      rw [htd, div_mul_cancel₀ _ hne, Nat.cast_list_sum, List.map_map]
      rfl
    · intro hzero
      rw [htd] at hzero
      rw [havg, hzero]
      simp

/-- Witness for C4 (amended) at one-file instances of both the build and
the merge laws. -/
theorem c4_corpus_stats_laws_witness :
    ([c4info].map FileInfo.path).Nodup ∧
    0 < (IndexBuilder.build "root" c4fs [c4info]).total_docs ∧
    (IndexBuilder.build "root" c4fs [c4info]).avg_doc_length *
      ((IndexBuilder.build "root" c4fs [c4info]).total_docs : ℚ) =
      (((IndexBuilder.build "root" c4fs [c4info]).files.map
        (fun pe => pe.2.doc_length)).sum : ℚ) ∧
    (merge_incremental c2existing c2fresh).avg_doc_length *
      ((merge_incremental c2existing c2fresh).total_docs : ℚ) =
      (((merge_incremental c2existing c2fresh).files.map
        (fun pe => pe.2.doc_length)).sum : ℚ) := by
  refine ⟨by decide, by decide, ?_, ?_⟩
  · exact ((c4_corpus_stats_laws.1 "root" c4fs [c4info] (by decide)).2.1 (by decide))
  · refine ((c4_corpus_stats_laws.2 c2existing c2fresh ?_ ?_).2.1 (by decide))
    · intro pe hpe
      rw [show c2existing.files = [("a.rs", c2oldEntry)] from rfl] at hpe
      rw [List.mem_singleton] at hpe
      rw [hpe]
      decide
    · intro pe hpe
      rw [show c2fresh.files = [("a.rs", c2freshEntry)] from rfl] at hpe
      rw [List.mem_singleton] at hpe
      rw [hpe]
      decide

/-- C2.  Merging a fresh index into an existing one is keyed strictly on
SHA-256: a path whose fresh SHA matches the existing entry keeps the
existing `FileEntry` value; paths absent from the fresh index are absent
from the merge (deletions dropped); and when every scanned `FileInfo`
SHA-matches the existing index, the (spec-modelled) changed-file count
is zero and — when the existing paths are all still present — the merged
map is lookup-equal to the existing one. -/
theorem c2_sha_keyed_incrementality :
    (∀ existing fresh : DeepIndex, (assocKeys fresh.files).Nodup →
      (∀ p ef ee, assocFind? p fresh.files = some ef →
        assocFind? p existing.files = some ee → ee.sha256 = ef.sha256 →
        assocFind? p (merge_incremental existing fresh).files = some ee) ∧
      (∀ p, assocFind? p fresh.files = none →
        assocFind? p (merge_incremental existing fresh).files = none)) ∧
    (∀ (root : String) (fs : String → Option String) (files : List FileInfo)
      (existing : DeepIndex),
      (files.map FileInfo.path).Nodup →
      (∀ info ∈ files, fs (pathJoin root info.path) ≠ none) →
      (∀ info ∈ files, ∃ ee, assocFind? info.path existing.files = some ee ∧
        ee.sha256 = info.sha256) →
      changedCount existing (IndexBuilder.build root fs files) = 0 ∧
      ((∀ p, (assocFind? p existing.files).isSome →
          (assocFind? p (IndexBuilder.build root fs files).files).isSome) →
        ∀ p, assocFind? p
            (merge_incremental existing (IndexBuilder.build root fs files)).files =
          assocFind? p existing.files)) := by
  constructor
  · intro existing fresh hnd
    constructor
    · intro p ef ee hf he hsha
      rw [merge_lookup existing fresh hnd p, hf]
      simp only [Option.map_some']
      have h1 : mergeChoose existing p ef =
          (if ee.sha256 = ef.sha256 then ee else ef) := by
        unfold mergeChoose
        rw [he]
      rw [h1, if_pos hsha]
    · intro p hf
      rw [merge_lookup existing fresh hnd p, hf]
      rfl
  · intro root fs files existing hnd hread hsha
    have hmem_entry : ∀ pe ∈ (IndexBuilder.build root fs files).files,
        ∃ info ∈ files, pe.1 = info.path ∧ pe.2.sha256 = info.sha256 := by
      intro pe hpe
      obtain ⟨info, hinfo, content, _, hpe⟩ :=
        buildEntries_mem root fs files pe (build_files_mem root fs files pe hpe)
      subst hpe
      exact ⟨info, hinfo, rfl, rfl⟩
    constructor
    · rw [changedCount, List.countP_eq_zero]
      intro pe hpe
      obtain ⟨info, hinfo, hpath, hshaeq⟩ := hmem_entry pe hpe
      obtain ⟨ee, hee, heesha⟩ := hsha info hinfo
      rw [hpath, hee]
      simp [heesha, hshaeq]
    · intro hdom p
      have hfnd : (assocKeys (IndexBuilder.build root fs files).files).Nodup := by
        rw [build_files_eq root fs files hnd]
        exact (buildEntries_keys_sublist root fs files).nodup hnd
      rw [merge_lookup existing (IndexBuilder.build root fs files) hfnd p]
      cases he : assocFind? p existing.files with
      | none =>
        cases hf : assocFind? p (IndexBuilder.build root fs files).files with
        | none => rfl
        | some ef =>
          obtain ⟨info, hinfo, hpath, _⟩ :=
            hmem_entry (p, ef) (assocFind?_some_mem hf)
          obtain ⟨ee, hee, _⟩ := hsha info hinfo
          rw [show p = info.path from hpath] at he
          rw [he] at hee
          cases hee
      | some ee =>
        have hfsome := hdom p (by rw [he]; rfl)
        cases hf : assocFind? p (IndexBuilder.build root fs files).files with
        | none => rw [hf] at hfsome; cases hfsome
        | some ef =>
          simp only [Option.map_some']
          obtain ⟨info, hinfo, hpath, hshaeq⟩ :=
            hmem_entry (p, ef) (assocFind?_some_mem hf)
          obtain ⟨ee2, hee2, hee2sha⟩ := hsha info hinfo
          have hpe : p = info.path := hpath
          rw [hpe] at he
          rw [he] at hee2
          injection hee2 with heq
          subst heq
          have hchoose : mergeChoose existing p ef = ee := by
            have h1 : mergeChoose existing p ef =
                (if ee.sha256 = ef.sha256 then ee else ef) := by
              unfold mergeChoose
              rw [hpe, he]
            rw [h1, if_pos (by rw [hee2sha]; exact hshaeq.symm)]
          rw [hchoose]

/-- Witness for C2: the SHA-matching path keeps the existing entry in a
concrete merge, and the concrete one-file rebuild reports zero changed
files. -/
theorem c2_sha_keyed_incrementality_witness :
    (assocKeys c2fresh.files).Nodup ∧
    assocFind? "a.rs" (merge_incremental c2existing c2fresh).files =
      some c2oldEntry ∧
    changedCount c2existing (IndexBuilder.build "root" c4fs [c4info]) = 0 := by
  refine ⟨by decide, ?_, ?_⟩
  · exact (c2_sha_keyed_incrementality.1 c2existing c2fresh (by decide)).1
      "a.rs" c2freshEntry c2oldEntry (by decide) (by decide) (by decide)
  · refine (c2_sha_keyed_incrementality.2 "root" c4fs [c4info] c2existing
      (by decide) ?_ ?_).1
    · intro info hinfo
      rw [List.mem_singleton] at hinfo
      subst hinfo
      decide
    · intro info hinfo
      rw [List.mem_singleton] at hinfo
      subst hinfo
      exact ⟨c2oldEntry, by decide, by decide⟩

/-- Witness for C1 at the spec's S6 scenario: four files with token
counts 1000/400/200/50 under `max_bytes = 2000`, compared against the
larger budget `max_bytes = 6000`. -/
theorem c1_token_budget_enforce_witness :
    ([sampleFile 1000, sampleFile 400, sampleFile 200, sampleFile 50] ≠
        ([] : List ScoredFile)) ∧
    (TokenBudget.mk (some 2000) none).enforce
        [sampleFile 1000, sampleFile 400, sampleFile 200, sampleFile 50] ≠ [] ∧
    budgetLe (TokenBudget.mk (some 2000) none) (TokenBudget.mk (some 6000) none) = true ∧
    (TokenBudget.mk (some 2000) none).enforce
        [sampleFile 1000, sampleFile 400, sampleFile 200, sampleFile 50] <+:
      (TokenBudget.mk (some 6000) none).enforce
        [sampleFile 1000, sampleFile 400, sampleFile 200, sampleFile 50] := by
  have h := c1_token_budget_enforce (TokenBudget.mk (some 2000) none)
    [sampleFile 1000, sampleFile 400, sampleFile 200, sampleFile 50]
  refine ⟨by decide, h.2.1 (by decide), by decide, ?_⟩
  exact (h.2.2.2.2 (TokenBudget.mk (some 6000) none) (by decide)).1

/-- Counterexample for C7 as stated: `.atlas` is not one of
`ALWAYS_SKIP_DIRS`, and with no gitignore rule in force `Scanner::scan`
keeps a file lying under a directory named `.atlas`. -/
theorem c7_skip_dirs_counterexample :
    (".atlas" ∈ ALWAYS_SKIP_DIRS → False) ∧
    Scanner.scan (fun _ => false) [[".atlas", "index.json"]] =
      [[".atlas", "index.json"]] := by
  exact ⟨by decide, rfl⟩

/-- C7, amended: `Scanner::scan` keeps a file iff none of its ancestor
directory basenames is hard-blocked and the walker does not ignore it,
where the hard-blocked list is exactly `.git`, `node_modules`, `.topo`,
`__pycache__`, `.venv`, `venv`, `.env`, `.svn`, `.hg` — without
`.atlas`.  Dotfiles as such are never skipped: a kept file may have any
basename. -/
theorem c7_scanner_skip_dirs (ignored : List String → Bool)
    (files : List (List String)) (f : List String) :
    (f ∈ Scanner.scan ignored files ↔
      f ∈ files ∧ (∀ d ∈ f.dropLast, ¬ d ∈ ALWAYS_SKIP_DIRS) ∧
        ignored f = false) ∧
    ALWAYS_SKIP_DIRS =
      [".git", "node_modules", ".topo", "__pycache__", ".venv", "venv",
        ".env", ".svn", ".hg"] := by
  refine ⟨?_, rfl⟩
  simp [Scanner.scan, List.mem_filter, and_assoc]

/-- Counterexample for C6 as stated: a persisted index with version tag
0 (below the current version 1) that deserializes successfully is
loaded as a real index, not as "no index present"; and a
deserialization failure is propagated as an error to the caller, not
treated as "no index". -/
theorem c6_load_counterexample :
    c6stored.version = 0 ∧
    load (IndexFile.stored c6stored) = Except.ok (some (from_stored c6stored)) ∧
    (load (IndexFile.stored c6stored) = Except.ok none → False) ∧
    load (IndexFile.malformed "bincode: invalid tag") =
      Except.error "bincode: invalid tag" := by
  refine ⟨rfl, rfl, ?_, rfl⟩
  intro h
  simp [load] at h

/-- C6, amended: `load` performs no version check at all — every stored
index that deserializes is converted and returned whatever its version
tag, a deserialization failure propagates as an error (`?`), and only a
missing file yields `None`. -/
theorem c6_load_behavior (f : IndexFile) :
    (∀ s, f = IndexFile.stored s →
      load f = Except.ok (some (from_stored s))) ∧
    (∀ e, f = IndexFile.malformed e → load f = Except.error e) ∧
    (f = IndexFile.absent → load f = Except.ok none) := by
  refine ⟨?_, ?_, ?_⟩
  · intro s h; subst h; rfl
  · intro e h; subst h; rfl
  · intro h; subst h; rfl

/-- C10: a stored per-file SHA whose byte vector is not exactly 32
bytes long is silently coerced to the all-zero hash while `load` still
succeeds; and an existing entry carrying the zero hash never SHA-matches
a fresh entry whose hash is non-zero, so `merge_incremental` replaces it
with the freshly built entry (the file is re-processed, not reused). -/
theorem c10_sha_coercion_reprocess (stored : StoredIndex)
    (existing fresh : DeepIndex) (p : String) (se : StoredFileEntry)
    (ee ef : FileEntry) :
    (assocFind? p stored.files = some se → se.sha256.length ≠ 32 →
      assocFind? p (from_stored stored).files =
        some (fileEntryFromStored se) ∧
      (fileEntryFromStored se).sha256 = List.replicate 32 0) ∧
    load (IndexFile.stored stored) = Except.ok (some (from_stored stored)) ∧
    ((assocKeys fresh.files).Nodup →
      assocFind? p existing.files = some ee →
      ee.sha256 = List.replicate 32 0 →
      assocFind? p fresh.files = some ef →
      ef.sha256 ≠ List.replicate 32 0 →
      assocFind? p (merge_incremental existing fresh).files = some ef) := by
  refine ⟨?_, rfl, ?_⟩
  · intro hfind hlen
    have h := assocFind?_map_transform
      (fun _ se => fileEntryFromStored se) p stored.files
    have h2 : assocFind? p (from_stored stored).files =
        (assocFind? p stored.files).map
          (fun se => fileEntryFromStored se) := h
    rw [h2, hfind]
    refine ⟨rfl, ?_⟩
    show (if se.sha256.length = 32 then se.sha256 else List.replicate 32 0) =
      List.replicate 32 0
    rw [if_neg hlen]
  · intro hnd hee heesha hef hefsha
    rw [merge_lookup existing fresh hnd p, hef]
    simp only [Option.map_some']
    have h1 : mergeChoose existing p ef =
        (if ee.sha256 = ef.sha256 then ee else ef) := by
      unfold mergeChoose
      rw [hee]
    rw [h1, if_neg (fun hcontra => hefsha (hcontra.symm.trans heesha))]

/-- Witness for C10: loading a concrete 3-byte stored SHA yields the
zero hash, and the next merge takes the fresh entry for that path. -/
theorem c10_sha_coercion_reprocess_witness :
    assocFind? "a.rs" (from_stored c10stored).files =
      some (fileEntryFromStored (StoredFileEntry.mk [1, 2, 3] 2 [] [])) ∧
    assocFind? "a.rs" (merge_incremental (from_stored c10stored) c10fresh).files =
      some c10entry := by
  have h := c10_sha_coercion_reprocess c10stored (from_stored c10stored)
    c10fresh "a.rs" (StoredFileEntry.mk [1, 2, 3] 2 [] [])
    (fileEntryFromStored (StoredFileEntry.mk [1, 2, 3] 2 [] [])) c10entry
  exact ⟨(h.1 (by decide) (by decide)).1,
    h.2.2 (by decide) (by decide) (by decide) (by decide) (by decide)⟩

/-- C3: `resolve_go` looks up the lowercased last import-path segment
in the directory index — falling back to the stem index exactly when
that lookup is empty, and never returning a path outside the directory
candidates otherwise (narrowing by the grandparent only filters) — and
on the S3 repository `api/core/v1/types.go`, `api/apps/v1/deploy.go`,
`testdata/v1.yaml` it resolves `k8s.io/api/core/v1` and
`k8s.io/api/apps/v1` to exactly the matching Go file, never to
`testdata/v1.yaml`. -/
theorem c3_go_import_resolution :
    (∀ (import_path : String) (index : RepoIndex) (last : String),
      (((splitOnPred (· == '/') import_path.toList).map String.mk).getLast?).getD ""
        = last →
      last ≠ "" →
      (indexGet (strToLower last) index.dir = [] →
        resolve_go import_path index = indexGet (strToLower last) index.stem) ∧
      (∀ c, c ∈ resolve_go import_path index →
        indexGet (strToLower last) index.dir ≠ [] →
        c ∈ indexGet (strToLower last) index.dir)) ∧
    resolve_go "k8s.io/api/core/v1" c3idx = ["api/core/v1/types.go"] ∧
    resolve_go "k8s.io/api/apps/v1" c3idx = ["api/apps/v1/deploy.go"] := by
  refine ⟨?_, by decide, by decide⟩
  intro import_path index last hlast hne
  subst hlast
  simp only [resolve_go]
  rw [if_neg hne]
  constructor
  · intro hdir
    rw [hdir]
    simp
  · intro c hc hdirne
    cases hempty : (indexGet (strToLower
        ((((splitOnPred (· == '/') import_path.toList).map
          String.mk).getLast?).getD "")) index.dir).isEmpty with
    | true => exact absurd (List.isEmpty_iff.mp hempty) hdirne
    | false =>
      rw [hempty] at hc
      simp only [Bool.not_false, if_true] at hc
      cases hpen : (((splitOnPred (· == '/') import_path.toList).map
          String.mk).dropLast).getLast? with
      | none => rw [hpen] at hc; exact hc
      | some pen =>
        rw [hpen] at hc
        simp only [] at hc
        split at hc
        · exact List.mem_of_mem_filter hc
        · exact hc

set_option maxHeartbeats 4000000 in
set_option maxRecDepth 4000 in
/-- C8: the power iteration has no dangling-node handling at all — on
the two-node graph `a.rs → b.rs`, where `b.rs` is dangling, the
converged scores are exactly `[3/40, 111/800]` and their total
`171/800` is far below 1, so the per-iteration update loses the
dangling node's mass instead of redistributing it to the teleport
term. -/
theorem c8_pagerank_dangling_mass :
    ImportGraph.pagerank c8g = [("a.rs", 3 / 40), ("b.rs", 111 / 800)] ∧
    ((ImportGraph.pagerank c8g).map Prod.snd).sum = 171 / 800 ∧
    ((ImportGraph.pagerank c8g).map Prod.snd).sum < 1 := by
  have hg : c8g =
      ImportGraph.mk [("a.rs", ["b.rs"]), ("b.rs", [])] ["a.rs", "b.rs"] := by
    decide
  have hpr : ImportGraph.pagerank c8g =
      [("a.rs", 3 / 40), ("b.rs", 111 / 800)] := by
    rw [hg]
    norm_num +decide [ImportGraph.pagerank, pagerankLoop, pagerankSweep,
      pushAdj, assocFind?, DAMPING, EPSILON, MAX_ITERATIONS,
      abs_eq_max_neg, max_def]
  refine ⟨hpr, ?_, ?_⟩ <;> rw [hpr] <;> norm_num

/-- C5: every graph `build_import_graph` produces contains no self-edge
(each adjacency target differs from its source) and no vendored node or
edge endpoint (no path with a `vendor`, `node_modules` or `third_party`
component), and the stem and directory indices it builds hold no
vendored path. -/
theorem c5_graph_excludes_self_and_vendored
    (file_imports : List (String × Language × List String))
    (all_paths : List String) :
    (∀ p ∈ (build_import_graph file_imports all_paths).nodes,
      is_vendored p = false) ∧
    (∀ pe ∈ (build_import_graph file_imports all_paths).edges,
      is_vendored pe.1 = false ∧
      ∀ d ∈ pe.2, d ≠ pe.1 ∧ is_vendored d = false) ∧
    (∀ v ∈ indexValues (build_file_index
        (all_paths.filter (fun p => !is_vendored p))).stem,
      is_vendored v = false) ∧
    (∀ v ∈ indexValues (build_file_index
        (all_paths.filter (fun p => !is_vendored p))).dir,
      is_vendored v = false) := by
  have hfl : ∀ x ∈ all_paths.filter (fun p => !is_vendored p),
      is_vendored x = false := by
    intro x hx
    have h := (List.mem_filter.mp hx).2
    simpa using h
  have hidx := build_file_index_values (all_paths.filter (fun p => !is_vendored p))
  have hstem : ∀ v ∈ indexValues (build_file_index
      (all_paths.filter (fun p => !is_vendored p))).stem,
      is_vendored v = false := fun v hv => hfl v (hidx.1 v hv)
  have hdir : ∀ v ∈ indexValues (build_file_index
      (all_paths.filter (fun p => !is_vendored p))).dir,
      is_vendored v = false := fun v hv => hfl v (hidx.2 v hv)
  have hbase := foldl_induction (fun g p => ImportGraph.add_node g p)
    (fun g => (∀ q ∈ g.nodes, is_vendored q = false) ∧
      (∀ pe ∈ g.edges, is_vendored pe.1 = false ∧
        ∀ d ∈ pe.2, d ≠ pe.1 ∧ is_vendored d = false))
    (all_paths.filter (fun p => !is_vendored p)) ImportGraph.new
    ⟨by simp [ImportGraph.new], by simp [ImportGraph.new]⟩
    (fun g p hp hg => add_node_ok g p hg.1 hg.2 (hfl p hp))
  have hmain := foldl_induction
    (fun g (fi : String × Language × List String) =>
      if is_vendored fi.1 then g
      else fi.2.2.foldl
        (fun g raw =>
          (resolve_import raw fi.1 fi.2.1
            (build_file_index (all_paths.filter (fun p => !is_vendored p)))).foldl
            (fun g target => ImportGraph.add_edge g fi.1 target) g)
        g)
    (fun g => (∀ q ∈ g.nodes, is_vendored q = false) ∧
      (∀ pe ∈ g.edges, is_vendored pe.1 = false ∧
        ∀ d ∈ pe.2, d ≠ pe.1 ∧ is_vendored d = false))
    file_imports
    ((all_paths.filter (fun p => !is_vendored p)).foldl
      (fun g p => ImportGraph.add_node g p) ImportGraph.new)
    hbase ?_
  · have hG : (∀ q ∈ (build_import_graph file_imports all_paths).nodes,
        is_vendored q = false) ∧
        (∀ pe ∈ (build_import_graph file_imports all_paths).edges,
          is_vendored pe.1 = false ∧
          ∀ d ∈ pe.2, d ≠ pe.1 ∧ is_vendored d = false) := hmain
    exact ⟨hG.1, hG.2, hstem, hdir⟩
  · intro g fi hfi hg
    simp only []
    by_cases hv : is_vendored fi.1
    · rw [if_pos hv]
      exact hg
    · rw [if_neg hv]
      refine foldl_induction _
        (fun g => (∀ q ∈ g.nodes, is_vendored q = false) ∧
          (∀ pe ∈ g.edges, is_vendored pe.1 = false ∧
            ∀ d ∈ pe.2, d ≠ pe.1 ∧ is_vendored d = false))
        fi.2.2 g hg ?_
      intro g2 raw _ hg2
      refine foldl_induction _
        (fun g => (∀ q ∈ g.nodes, is_vendored q = false) ∧
          (∀ pe ∈ g.edges, is_vendored pe.1 = false ∧
            ∀ d ∈ pe.2, d ≠ pe.1 ∧ is_vendored d = false))
        (resolve_import raw fi.1 fi.2.1
          (build_file_index (all_paths.filter (fun p => !is_vendored p)))) g2 hg2 ?_
      intro g3 target htarget hg3
      obtain ⟨hmem, hne⟩ := resolve_import_mem raw fi.1 fi.2.1 _ target htarget
      have htv : is_vendored target = false := by
        rcases hmem with h | h
        · exact hstem target h
        · exact hdir target h
      have hsv : is_vendored fi.1 = false := by
        simpa using hv
      exact And.intro
        ((add_edge_ok g3 fi.1 target hg3.1 hg3.2 hsv htv hne).1)
        ((add_edge_ok g3 fi.1 target hg3.1 hg3.2 hsv htv hne).2)

end Topo
